import Mathlib

/-!
Verification of the brand-matching engine (`src/common/brands.ts`).

The development shallowly embeds the engine's source:
strings are Lean `String`s (lists of characters), the JavaScript regular
expressions compiled by the engine are embedded by their matching semantics
on character lists (all of them are built from the fixed shapes
`^B(\b|\s|$)`, `^\S+\s+B(\b|\s|$)`, `\bB\b` and
`^(?:B\s|.*\sB\s.*|.*\sB)$` over an escaped brand literal `B`, with the
case-insensitive flag), JavaScript `Map`/`Set`/object stores are embedded
as insertion-ordered association lists, and the partial `Array.reduce`
(which throws on an empty array without initial value) returns `Option`.
Unicode NFD normalization is embedded by a canonical-decomposition table
covering the character ranges the source itself tests for
(U+00C0–U+017F base letters and U+0300–U+036F combining marks).
-/

/-- JavaScript `\w` character class: `[A-Za-z0-9_]`. -/
def jsWordChar (c : Char) : Bool :=
  (0x30 ≤ c.toNat && c.toNat ≤ 0x39) || (0x41 ≤ c.toNat && c.toNat ≤ 0x5a) ||
  (0x61 ≤ c.toNat && c.toNat ≤ 0x7a) || c.toNat = 0x5f

/-- JavaScript `\s` character class (ECMAScript WhiteSpace and LineTerminator). -/
def jsSpace (c : Char) : Bool :=
  (0x9 ≤ c.toNat && c.toNat ≤ 0xd) || c.toNat = 0x20 || c.toNat = 0xa0 ||
  c.toNat = 0x1680 || (0x2000 ≤ c.toNat && c.toNat ≤ 0x200a) || c.toNat = 0x2028 ||
  c.toNat = 0x2029 || c.toNat = 0x202f || c.toNat = 0x205f || c.toNat = 0x3000 ||
  c.toNat = 0xfeff

/-- JavaScript `.` (dot, without the `s` flag): any character except a line terminator. -/
def jsDot (c : Char) : Bool :=
  !(c.toNat = 0xa || c.toNat = 0xd || c.toNat = 0x2028 || c.toNat = 0x2029)

/-- Lower-casing of a character list; models the `i` regex flag and
`String.prototype.toLowerCase` for the ASCII range. -/
def lowerChars (l : List Char) : List Char :=
  l.map Char.toLower

/-- `String.prototype.toLowerCase` as a `String` function (ASCII range). -/
def strToLower (s : String) : String :=
  ⟨lowerChars s.data⟩

/-- Is the character at position `p` a word character (out of range: no)? -/
def isWordAt (t : List Char) (p : Nat) : Bool :=
  match t.get? p with
  | some c => jsWordChar c
  | none => false

/-- JavaScript `\b` assertion at position `p` of `t`. -/
def boundaryAt (t : List Char) (p : Nat) : Bool :=
  ((decide (0 < p)) && isWordAt t (p - 1)) != isWordAt t p

/-- Is the character at position `p` in the `\s` class (out of range: no)? -/
def spaceAt (t : List Char) (p : Nat) : Bool :=
  match t.get? p with
  | some c => jsSpace c
  | none => false

/-- Does pattern literal `b` occur in `t` starting at position `p`? -/
def occursAt (t b : List Char) (p : Nat) : Bool :=
  b.isPrefixOf (t.drop p)

/-- The group `(\b|\s|$)` tested right after an occurrence of `b` at `p`. -/
def groupBoundarySpaceEnd (t b : List Char) (p : Nat) : Bool :=
  boundaryAt t (p + b.length) || spaceAt t (p + b.length) ||
    decide (p + b.length = t.length)

/-- Semantics of `new RegExp ({ba}^B(\b|\s|$){bb}, "i").test(input)` for brand literal `B`. -/
def reFirstWord (lit input : List Char) : Bool :=
  let b := lowerChars lit
  let t := lowerChars input
  b.isPrefixOf t && groupBoundarySpaceEnd t b 0

/-- Semantics of `new RegExp ({ba}^\S+\s+B(\b|\s|$){bb}, "i").test(input)`. -/
def reSecondWord (lit input : List Char) : Bool :=
  let b := lowerChars lit
  let t := lowerChars input
  (List.range (t.length + 1)).any (fun j =>
    occursAt t b j && groupBoundarySpaceEnd t b j &&
    (List.range j).any (fun i =>
      decide (1 ≤ i) && (t.take i).all (fun c => !jsSpace c) &&
      ((t.drop i).take (j - i)).all jsSpace))

/-- Semantics of `new RegExp ({ba}\bB\b{bb}, "i").test(input)`. -/
def reSeparateTerm (lit input : List Char) : Bool :=
  let b := lowerChars lit
  let t := lowerChars input
  (List.range (t.length + 1)).any (fun p =>
    occursAt t b p && boundaryAt t p && boundaryAt t (p + b.length))

/-- Semantics of `new RegExp ({ba}^(?:B\s|.*\sB\s.*|.*\sB)$\x7d, "i").test(input)`
(the `atBeginningOrEndOrMiddle` pattern of `checkBrandIsSeparateTerm`). -/
def reAtBeginningOrEndOrMiddle (lit input : List Char) : Bool :=
  let b := lowerChars lit
  let t := lowerChars input
  (decide (t.length = b.length + 1) && b.isPrefixOf t && spaceAt t b.length) ||
  (List.range (t.length + 1)).any (fun p =>
    decide (1 ≤ p) && spaceAt t (p - 1) && occursAt t b p &&
    spaceAt t (p + b.length) && (t.take (p - 1)).all jsDot &&
    (t.drop (p + b.length + 1)).all jsDot) ||
  (List.range (t.length + 1)).any (fun p =>
    decide (1 ≤ p) && spaceAt t (p - 1) && occursAt t b p &&
    decide (p + b.length = t.length) && (t.take (p - 1)).all jsDot)

/-- `firstWordBrandValidationList` from the source. -/
def firstWordBrandValidationList : List String :=
  [r"rich", r"rff", r"flex", r"ultra", r"gum", r"beauty", r"orto", r"free",
   r"112", r"kin", r"happy", r"HAPPY"]

/-- `firstOrSecondWordBrandValidationList` from the source. -/
def firstOrSecondWordBrandValidationList : List String :=
  [r"heel", r"contour", r"nero", r"rsv"]

/-- `ignoreBrandsList` from the source. -/
def ignoreBrandsList : List String :=
  [r"bio", r"neb"]

/-- The escaped brand literal embedded in the compiled patterns.
`brand.replace(/[.*+?^$\x7b\x7d()|[\]\\]/g, "\\$&")` makes the brand match as a
literal, so the embedded literal is the brand itself; the source then compares
the escaped brand to `"happy"` (which holds exactly when the brand is
`"happy"`, since escaping only inserts backslashes) and upper-cases it. -/
def escapedBrandOf (brand : String) : String :=
  if brand = "happy" then "HAPPY" else brand

/-- Canonical decomposition table: NFD decompositions (base letter plus
combining diacritical marks in U+0300–U+036F) of the precomposed Latin letters
in U+00C0–U+00FF and the Latin Extended-A letters relevant to the catalog
languages.  Characters without an entry decompose to themselves. -/
def decompTable : List (Char × List Char) :=
  [(Char.ofNat 0xc0, [Char.ofNat 0x41, Char.ofNat 0x300]),
   (Char.ofNat 0xc1, [Char.ofNat 0x41, Char.ofNat 0x301]),
   (Char.ofNat 0xc2, [Char.ofNat 0x41, Char.ofNat 0x302]),
   (Char.ofNat 0xc3, [Char.ofNat 0x41, Char.ofNat 0x303]),
   (Char.ofNat 0xc4, [Char.ofNat 0x41, Char.ofNat 0x308]),
   (Char.ofNat 0xc5, [Char.ofNat 0x41, Char.ofNat 0x30a]),
   (Char.ofNat 0xc7, [Char.ofNat 0x43, Char.ofNat 0x327]),
   (Char.ofNat 0xc8, [Char.ofNat 0x45, Char.ofNat 0x300]),
   (Char.ofNat 0xc9, [Char.ofNat 0x45, Char.ofNat 0x301]),
   (Char.ofNat 0xca, [Char.ofNat 0x45, Char.ofNat 0x302]),
   (Char.ofNat 0xcb, [Char.ofNat 0x45, Char.ofNat 0x308]),
   (Char.ofNat 0xcc, [Char.ofNat 0x49, Char.ofNat 0x300]),
   (Char.ofNat 0xcd, [Char.ofNat 0x49, Char.ofNat 0x301]),
   (Char.ofNat 0xce, [Char.ofNat 0x49, Char.ofNat 0x302]),
   (Char.ofNat 0xcf, [Char.ofNat 0x49, Char.ofNat 0x308]),
   (Char.ofNat 0xd1, [Char.ofNat 0x4e, Char.ofNat 0x303]),
   (Char.ofNat 0xd2, [Char.ofNat 0x4f, Char.ofNat 0x300]),
   (Char.ofNat 0xd3, [Char.ofNat 0x4f, Char.ofNat 0x301]),
   (Char.ofNat 0xd4, [Char.ofNat 0x4f, Char.ofNat 0x302]),
   (Char.ofNat 0xd5, [Char.ofNat 0x4f, Char.ofNat 0x303]),
   (Char.ofNat 0xd6, [Char.ofNat 0x4f, Char.ofNat 0x308]),
   (Char.ofNat 0xd9, [Char.ofNat 0x55, Char.ofNat 0x300]),
   (Char.ofNat 0xda, [Char.ofNat 0x55, Char.ofNat 0x301]),
   (Char.ofNat 0xdb, [Char.ofNat 0x55, Char.ofNat 0x302]),
   (Char.ofNat 0xdc, [Char.ofNat 0x55, Char.ofNat 0x308]),
   (Char.ofNat 0xdd, [Char.ofNat 0x59, Char.ofNat 0x301]),
   (Char.ofNat 0xe0, [Char.ofNat 0x61, Char.ofNat 0x300]),
   (Char.ofNat 0xe1, [Char.ofNat 0x61, Char.ofNat 0x301]),
   (Char.ofNat 0xe2, [Char.ofNat 0x61, Char.ofNat 0x302]),
   (Char.ofNat 0xe3, [Char.ofNat 0x61, Char.ofNat 0x303]),
   (Char.ofNat 0xe4, [Char.ofNat 0x61, Char.ofNat 0x308]),
   (Char.ofNat 0xe5, [Char.ofNat 0x61, Char.ofNat 0x30a]),
   (Char.ofNat 0xe7, [Char.ofNat 0x63, Char.ofNat 0x327]),
   (Char.ofNat 0xe8, [Char.ofNat 0x65, Char.ofNat 0x300]),
   (Char.ofNat 0xe9, [Char.ofNat 0x65, Char.ofNat 0x301]),
   (Char.ofNat 0xea, [Char.ofNat 0x65, Char.ofNat 0x302]),
   (Char.ofNat 0xeb, [Char.ofNat 0x65, Char.ofNat 0x308]),
   (Char.ofNat 0xec, [Char.ofNat 0x69, Char.ofNat 0x300]),
   (Char.ofNat 0xed, [Char.ofNat 0x69, Char.ofNat 0x301]),
   (Char.ofNat 0xee, [Char.ofNat 0x69, Char.ofNat 0x302]),
   (Char.ofNat 0xef, [Char.ofNat 0x69, Char.ofNat 0x308]),
   (Char.ofNat 0xf1, [Char.ofNat 0x6e, Char.ofNat 0x303]),
   (Char.ofNat 0xf2, [Char.ofNat 0x6f, Char.ofNat 0x300]),
   (Char.ofNat 0xf3, [Char.ofNat 0x6f, Char.ofNat 0x301]),
   (Char.ofNat 0xf4, [Char.ofNat 0x6f, Char.ofNat 0x302]),
   (Char.ofNat 0xf5, [Char.ofNat 0x6f, Char.ofNat 0x303]),
   (Char.ofNat 0xf6, [Char.ofNat 0x6f, Char.ofNat 0x308]),
   (Char.ofNat 0xf9, [Char.ofNat 0x75, Char.ofNat 0x300]),
   (Char.ofNat 0xfa, [Char.ofNat 0x75, Char.ofNat 0x301]),
   (Char.ofNat 0xfb, [Char.ofNat 0x75, Char.ofNat 0x302]),
   (Char.ofNat 0xfc, [Char.ofNat 0x75, Char.ofNat 0x308]),
   (Char.ofNat 0xfd, [Char.ofNat 0x79, Char.ofNat 0x301]),
   (Char.ofNat 0xff, [Char.ofNat 0x79, Char.ofNat 0x308]),
   (Char.ofNat 0x100, [Char.ofNat 0x41, Char.ofNat 0x304]),
   (Char.ofNat 0x101, [Char.ofNat 0x61, Char.ofNat 0x304]),
   (Char.ofNat 0x10c, [Char.ofNat 0x43, Char.ofNat 0x30c]),
   (Char.ofNat 0x10d, [Char.ofNat 0x63, Char.ofNat 0x30c]),
   (Char.ofNat 0x112, [Char.ofNat 0x45, Char.ofNat 0x304]),
   (Char.ofNat 0x113, [Char.ofNat 0x65, Char.ofNat 0x304]),
   (Char.ofNat 0x116, [Char.ofNat 0x45, Char.ofNat 0x307]),
   (Char.ofNat 0x117, [Char.ofNat 0x65, Char.ofNat 0x307]),
   (Char.ofNat 0x12a, [Char.ofNat 0x49, Char.ofNat 0x304]),
   (Char.ofNat 0x12b, [Char.ofNat 0x69, Char.ofNat 0x304]),
   (Char.ofNat 0x12e, [Char.ofNat 0x49, Char.ofNat 0x328]),
   (Char.ofNat 0x12f, [Char.ofNat 0x69, Char.ofNat 0x328]),
   (Char.ofNat 0x160, [Char.ofNat 0x53, Char.ofNat 0x30c]),
   (Char.ofNat 0x161, [Char.ofNat 0x73, Char.ofNat 0x30c]),
   (Char.ofNat 0x16a, [Char.ofNat 0x55, Char.ofNat 0x304]),
   (Char.ofNat 0x16b, [Char.ofNat 0x75, Char.ofNat 0x304]),
   (Char.ofNat 0x172, [Char.ofNat 0x55, Char.ofNat 0x328]),
   (Char.ofNat 0x173, [Char.ofNat 0x75, Char.ofNat 0x328]),
   (Char.ofNat 0x17d, [Char.ofNat 0x5a, Char.ofNat 0x30c]),
   (Char.ofNat 0x17e, [Char.ofNat 0x7a, Char.ofNat 0x30c])]

/-- Canonical decomposition of one character. -/
def decomposeChar (c : Char) : List Char :=
  match List.lookup c decompTable with
  | some l => l
  | none => [c]

/-- NFD normalization of a character list (`input.normalize("NFD")`). -/
def nfdChars (l : List Char) : List Char :=
  l.flatMap decomposeChar

/-- `input.normalize("NFD")` as a `String` function. -/
def nfd (s : String) : String :=
  ⟨nfdChars s.data⟩

/-- Is `c` a combining diacritical mark, i.e. in `[̀-ͯ]`? -/
def isCombiningMark (c : Char) : Bool :=
  0x300 ≤ c.toNat && c.toNat ≤ 0x36f

/-- The accent test `/[̀-ͯÀ-ſ]/.test(s)`. -/
def hasAccentTest (s : String) : Bool :=
  s.data.any (fun c => isCombiningMark c || (0xc0 ≤ c.toNat && c.toNat ≤ 0x17f))

/-- `normalizeInputIfAccentInsensitive` from the source: decompose with NFD;
if any character of the tested ranges is present, strip the combining marks,
otherwise return the input unchanged.  (The memoization cache of the source is
observably the identity because the function is deterministic.) -/
def normalizeInputIfAccentInsensitive (input : String) : String :=
  let normalized := nfd input
  if hasAccentTest normalized then
    ⟨normalized.data.filter (fun c => !isCombiningMark c)⟩
  else
    input

/-- `checkBrandIsSeparateTerm` from the source (the variant in which the
positional check for a first-word brand fully replaces the generic check). -/
def checkBrandIsSeparateTerm (input brand : String) : Bool :=
  let escapedBrand := escapedBrandOf brand
  let inp := normalizeInputIfAccentInsensitive input
  let atBeginningOrEndOrMiddle :=
    reAtBeginningOrEndOrMiddle escapedBrand.data inp.data
  if firstWordBrandValidationList.contains brand then
    reFirstWord escapedBrand.data inp.data
  else if firstOrSecondWordBrandValidationList.contains brand then
    reFirstWord escapedBrand.data inp.data || reSecondWord escapedBrand.data inp.data
  else
    atBeginningOrEndOrMiddle || reSeparateTerm escapedBrand.data inp.data

/-- The position policy a compiled cache entry carries. -/
inductive PatternKind where
  | firstWord
  | firstOrSecond
  | anywhere
deriving DecidableEq, Repr

/-- One entry of the compiled brand-match cache: the brand, the escaped
literal embedded in its pattern, and the shape of the compiled pattern. -/
structure CacheEntry where
  brand : String
  lit : String
  kind : PatternKind
deriving DecidableEq, Repr

/-- `buildBrandMatchCache` from the source: skip ignored brands, escape (and
for `"happy"` upper-case) the literal, and compile one pattern per brand
according to its position-policy list. -/
def buildBrandMatchCache (brands : List String) : List CacheEntry :=
  brands.foldl (fun cache brand =>
    if ignoreBrandsList.contains brand then cache
    else
      let escapedBrand := escapedBrandOf brand
      if firstWordBrandValidationList.contains brand then
        cache ++ [⟨brand, escapedBrand, PatternKind.firstWord⟩]
      else if firstOrSecondWordBrandValidationList.contains brand then
        cache ++ [⟨brand, escapedBrand, PatternKind.firstOrSecond⟩]
      else
        cache ++ [⟨brand, escapedBrand, PatternKind.anywhere⟩]) []

/-- `checkBrandMatch` from the source: test a cache entry's compiled pattern
against the (already normalized) input. -/
def checkBrandMatch (normalizedInput : String) (e : CacheEntry) : Bool :=
  match e.kind with
  | PatternKind.firstWord => reFirstWord e.lit.data normalizedInput.data
  | PatternKind.firstOrSecond =>
      reFirstWord e.lit.data normalizedInput.data ||
      reSecondWord e.lit.data normalizedInput.data
  | PatternKind.anywhere => reSeparateTerm e.lit.data normalizedInput.data

/-- The verdict of the pattern-cache matcher for one brand: build the cache
from `brands` and test the entry compiled for `brand` against the normalized
title, as `assignBrandIfKnown` does. -/
def cacheMatches (brands : List String) (brand title : String) : Bool :=
  (buildBrandMatchCache brands).any (fun e =>
    e.brand == brand && checkBrandMatch (normalizeInputIfAccentInsensitive title) e)

/-- Stable insertion (descending brand length) used to model the stable
`Array.prototype.sort` with comparator `b.brand.length - a.brand.length`. -/
def insertCacheDesc (e : CacheEntry) : List CacheEntry → List CacheEntry
  | [] => [e]
  | h :: t =>
      if h.brand.length ≤ e.brand.length then e :: h :: t
      else h :: insertCacheDesc e t

/-- `brandMatchCache.sort((a, b) => b.brand.length - a.brand.length)`:
a stable sort by brand length, descending. -/
def sortCacheByLenDesc (l : List CacheEntry) : List CacheEntry :=
  l.foldr insertCacheDesc []

/-- One raw brand-relationship record (`brandConnections` row). -/
structure BrandConnection where
  manufacturer_p1 : String
  manufacturers_p2 : String
deriving DecidableEq, Repr

/-- The alias graph: a brand mapped to the list of its related brands, in
insertion order (models the `Map<string, Set<string>>` of the source). -/
abbrev BrandsMapping := List (String × List String)

/-- `String.prototype.split(";")` for the one-character separator. -/
def splitSemi : List Char → List (List Char)
  | [] => [[]]
  | c :: t =>
      let r := splitSemi t
      if c = ';' then [] :: r
      else
        match r with
        | [] => [[c]]
        | h :: t2 => (c :: h) :: t2

/-- `String.prototype.trim`: drop whitespace from both ends. -/
def trimChars (l : List Char) : List Char :=
  ((((l.dropWhile jsSpace).reverse).dropWhile jsSpace).reverse)

/-- Does the map already have brand `k` as a key? -/
def hasBrandKey (g : BrandsMapping) (k : String) : Bool :=
  g.any (fun p => p.1 == k)

/-- `if (!brandMap.has(k)) brandMap.set(k, new Set())`. -/
def ensureBrandKey (g : BrandsMapping) (k : String) : BrandsMapping :=
  if hasBrandKey g k then g else g ++ [(k, [])]

/-- Insert into a JS `Set` modeled as an insertion-ordered duplicate-free list. -/
def insertVal (l : List String) (v : String) : List String :=
  if l.contains v then l else l ++ [v]

/-- `brandMap.get(k)!.add(v)` (a no-op when `k` is absent, as ensured keys
are always present at the call sites). -/
def addNeighbor (g : BrandsMapping) (k v : String) : BrandsMapping :=
  g.map (fun p => if p.1 == k then (p.1, insertVal p.2 v) else p)

/-- The body of the inner `forEach`: ensure `brand2`, then create the
bidirectional relationship between `brand1` and `brand2`. -/
def addConnection (brand1 : String) (g : BrandsMapping) (brand2 : String) :
    BrandsMapping :=
  let g2 := ensureBrandKey g brand2
  let g3 := addNeighbor g2 brand1 brand2
  addNeighbor g3 brand2 brand1

/-- Processing of one `brandConnections` record by `getBrandsMapping`. -/
def processConnection (g : BrandsMapping) (r : BrandConnection) : BrandsMapping :=
  let brand1 := strToLower r.manufacturer_p1
  let brand2Array :=
    (splitSemi (lowerChars r.manufacturers_p2.data)).map (fun l => String.mk (trimChars l))
  let g1 := ensureBrandKey g brand1
  brand2Array.foldl (addConnection brand1) g1

/-- `getBrandsMapping` from the source: fold all relationship records into
the alias graph. -/
def getBrandsMapping (connections : List BrandConnection) : BrandsMapping :=
  connections.foldl processConnection []

/-- The neighbor list of a brand (`brandsMapping[b] || []`). -/
def relatedOf (g : BrandsMapping) (k : String) : List String :=
  match List.lookup k g with
  | some l => l
  | none => []

/-- `Array.prototype.reduce` picking the first shortest string; `none` models
the `TypeError` thrown on an empty array. -/
def chooseShortest : List String → Option String
  | [] => none
  | h :: t =>
      some (t.foldl (fun shortest current =>
        if current.length < shortest.length then current else shortest) h)

/-- Selection of the canonical brand of one neighbor list: the first shortest
non-ignored brand, falling back to the first shortest of the whole list when
every brand of the list is ignored. -/
def canonicalBrandOf (relatedBrands : List String) : Option String :=
  let filteredBrands :=
    relatedBrands.filter (fun b => !ignoreBrandsList.contains (strToLower b))
  if filteredBrands.length > 0 then chooseShortest filteredBrands
  else chooseShortest relatedBrands

/-- Assignment `obj[k] = v` on an object modeled as an insertion-ordered
association list: overwrite in place or append. -/
def insertAssoc : List (String × String) → String → String → List (String × String)
  | [], k, v => [(k, v)]
  | p :: t, k, v => if p.1 == k then (k, v) :: t else p :: insertAssoc t k v

/-- `canonicalLookup[brand.toLowerCase()] = canonicalBrand.toLowerCase()`:
one assignment of the canonical-lookup builder. -/
def writeCanonical (canonicalBrand : String) (m : List (String × String))
    (brand : String) : List (String × String) :=
  insertAssoc m (strToLower brand) (strToLower canonicalBrand)

/-- Processing of one graph entry by `buildCanonicalLookup`: select the
canonical brand of the neighbor list (`none` on the empty list, modeling the
`TypeError` of `reduce`), then map every brand of the list to it. -/
def canonicalStep (acc : Option (List (String × String)))
    (p : String × List String) : Option (List (String × String)) :=
  acc.bind (fun m =>
    (canonicalBrandOf p.2).map (fun canonicalBrand =>
      p.2.foldl (writeCanonical canonicalBrand) m))

/-- `buildCanonicalLookup` from the source; `none` models the `TypeError`
raised when some neighbor list is empty (`reduce` of an empty array). -/
def buildCanonicalLookup (brandsMapping : BrandsMapping) :
    Option (List (String × String)) :=
  brandsMapping.foldl canonicalStep (some [])

/-- The flat brand set (`Object.values(brandsMapping)` flattened into a `Set`). -/
def allBrandsOf (g : BrandsMapping) : List String :=
  g.foldl (fun acc p => p.2.foldl insertVal acc) []

/-- The pre-computed brand network of one brand: its lower-cased neighbors
followed by the brand itself (`brandNetworkCache`). -/
def networkOf (g : BrandsMapping) (brand : String) : List String :=
  let related := relatedOf g (strToLower brand)
  insertVal (related.foldl (fun acc r => insertVal acc (strToLower r)) []) (strToLower brand)

/-- The candidate set of a matched-brand list: the union of the networks of
the matched brands, in insertion order (`allConnectedBrands`). -/
def candidatesOf (g : BrandsMapping) (matched : List String) : List String :=
  matched.foldl (fun acc brand => (networkOf g brand).foldl insertVal acc) []

/-- `String.prototype.indexOf`: position of the first occurrence, `none` for `-1`. -/
def firstIndexOf (s pat : List Char) : Option Nat :=
  if pat.isPrefixOf s then some 0
  else
    match s with
    | [] => none
    | _ :: t => (firstIndexOf t pat).map (fun n => n + 1)

/-- One iteration of the earliest-occurrence scan: keep the running
`earliestIndex` (`none` is `Infinity`) and `priorityBrand`, updating them when
the brand occurs strictly earlier. -/
def priorityStep (lowerTitle : List Char) (acc : Option Nat × Option String)
    (brand : String) : Option Nat × Option String :=
  match firstIndexOf lowerTitle brand.data with
  | none => acc
  | some index =>
      match acc.1 with
      | none => (some index, some brand)
      | some earliest =>
          if index < earliest then (some index, some brand) else acc

/-- The earliest-occurrence scan over the candidate brands. -/
def selectPriorityLoop (candidates : List String) (lowerTitle : List Char) :
    Option Nat × Option String :=
  candidates.foldl (priorityStep lowerTitle) (none, none)

/-- The priority brand of a product with first matched brand `m0`: the result
of the earliest-occurrence scan, replaced by `matchedBrands[0].toLowerCase()`
when the scan produced nothing or the falsy empty string. -/
def priorityBrandOf (m0 : String) (candidates : List String)
    (lowerTitle : List Char) : String :=
  match (selectPriorityLoop candidates lowerTitle).2 with
  | some s => if s = "" then strToLower m0 else s
  | none => strToLower m0

/-- One output record of `assignBrandIfKnown`. -/
structure MatchResult where
  product : String
  matchedBrands : List String
  assignedBrand : Option String
  priorityBrand : Option String
deriving DecidableEq, Repr

/-- One iteration of the matched-brand collection loop: skip a brand already
matched, otherwise test its pattern and append it on a match. -/
def collectStep (normalizedTitle : String) (acc : List String)
    (e : CacheEntry) : List String :=
  if acc.contains e.brand then acc
  else if checkBrandMatch normalizedTitle e then acc ++ [e.brand] else acc

/-- The per-product body of `assignBrandIfKnown`: normalize the title once,
collect the matching cache entries in order (skipping duplicates), resolve the
priority brand over the candidate set, and map it through the canonical
lookup (falling back to the priority brand itself on a falsy lookup result). -/
def processTitle (cache : List CacheEntry) (g : BrandsMapping)
    (canonicalLookup : List (String × String)) (title : String) : MatchResult :=
  let normalizedTitle := normalizeInputIfAccentInsensitive title
  let lowerTitle := strToLower normalizedTitle
  let matchedBrands := cache.foldl (collectStep normalizedTitle) []
  match matchedBrands with
  | [] => ⟨title, [], none, none⟩
  | m0 :: rest =>
      let priorityBrand :=
        priorityBrandOf m0 (candidatesOf g (m0 :: rest)) lowerTitle.data
      let mainBrand :=
        match List.lookup priorityBrand canonicalLookup with
        | some v => if v = "" then priorityBrand else v
        | none => priorityBrand
      ⟨title, m0 :: rest, some mainBrand, some priorityBrand⟩

/-- The whole batch pipeline of `assignBrandIfKnown` applied to one title:
build the graph, the canonical lookup (`none` models its possible
`TypeError`), the flat brand set and the sorted pattern cache, then process
the title. -/
def runPipeline (connections : List BrandConnection) (title : String) :
    Option MatchResult :=
  let brandsMapping := getBrandsMapping connections
  (buildCanonicalLookup brandsMapping).map (fun canonicalLookup =>
    let allBrands := allBrandsOf brandsMapping
    let cache := sortCacheByLenDesc (buildBrandMatchCache allBrands)
    processTitle cache brandsMapping canonicalLookup title)

/-- The whitespace-delimited tokens of a title (stated from the spec's words,
for comparison with the code's behavior). -/
def whitespaceTokens (s : String) : List (List Char) :=
  (List.splitOnP jsSpace s.data).filter (fun l => l ≠ [])

/-- Does the title contain the exact upper-case token `HAPPY` (stated from
the spec's words, for comparison with the code's behavior)? -/
def containsUpperHappyToken (s : String) : Bool :=
  (whitespaceTokens s).any (fun l => l = (r"HAPPY").data)

/-- Does the alias occur, case-insensitively, as the first
whitespace-delimited token of the title (stated from the claim's words, for
comparison with the code's behavior)? -/
def aliasIsFirstToken (a title : String) : Bool :=
  match whitespaceTokens title with
  | [] => false
  | t :: _ => lowerChars t = lowerChars a.data

/-- `c` is the first shortest string of `l`: it is length-minimal in `l` and
every element before its occurrence is strictly longer. -/
def IsFirstShortest (l : List String) (c : String) : Prop :=
  (∃ pre post, l = pre ++ c :: post ∧ ∀ x ∈ pre, c.length < x.length) ∧
  ∀ x ∈ l, c.length ≤ x.length

/-- Symmetry of the alias graph: `x ∈ graph[a]` iff `a ∈ graph[x]`. -/
def GraphSymm (g : BrandsMapping) : Prop :=
  ∀ a x, x ∈ relatedOf g a ↔ a ∈ relatedOf g x

/-! ### Generic helper lemmas -/

lemma lookup_mem_pair {α β : Type} [BEq α] [LawfulBEq α] {a : α} {b : β}
    {l : List (α × β)} (h : List.lookup a l = some b) : (a, b) ∈ l := by
  induction l with
  | nil => simp [List.lookup] at h
  | cons p t ih =>
      rcases p with ⟨k, v⟩
      rw [List.lookup_cons] at h
      cases hak : (a == k) with
      | true =>
          rw [hak] at h
          simp only [Option.some.injEq] at h
          subst h
          have : a = k := by exact beq_iff_eq.mp hak
          subst this
          exact List.mem_cons_self _ _
      | false =>
          rw [hak] at h
          exact List.mem_cons_of_mem _ (ih h)

/-! ### C8 infrastructure: idempotence of the accent normalizer -/

lemma decompTable_output_unmapped :
    ∀ p ∈ decompTable, ∀ d ∈ p.2, List.lookup d decompTable = none := by decide

lemma decomposeChar_stable {c d : Char} (h : d ∈ decomposeChar c) :
    decomposeChar d = [d] := by
  unfold decomposeChar at h ⊢
  cases hl : List.lookup c decompTable with
  | none =>
      rw [hl] at h
      simp only [List.mem_singleton] at h
      subst h
      rw [hl]
  | some l =>
      rw [hl] at h
      have hm : (c, l) ∈ decompTable := lookup_mem_pair hl
      rw [decompTable_output_unmapped (c, l) hm d h]

lemma nfdChars_of_stable {m : List Char} (h : ∀ d ∈ m, decomposeChar d = [d]) :
    nfdChars m = m := by
  induction m with
  | nil => rfl
  | cons c t ih =>
      have hc : decomposeChar c = [c] := h c (List.mem_cons_self _ _)
      have ht : nfdChars t = t := ih (fun d hd => h d (List.mem_cons_of_mem _ hd))
      unfold nfdChars at ht ⊢
      rw [List.flatMap_cons, hc, ht]
      rfl

lemma mem_nfdChars_stable {l : List Char} {d : Char} (h : d ∈ nfdChars l) :
    decomposeChar d = [d] := by
  rw [nfdChars, List.mem_flatMap] at h
  obtain ⟨c, _, hdc⟩ := h
  exact decomposeChar_stable hdc

/-! ### Helper lemmas for the priority scan, the canonical lookup and the graph -/

lemma selectLoop_go_none (t : List Char) (cands : List String)
    (acc : Option Nat × Option String)
    (h : ∀ c ∈ cands, firstIndexOf t c.data = none) :
    cands.foldl (priorityStep t) acc = acc := by
  induction cands generalizing acc with
  | nil => rfl
  | cons c cs ih =>
      rw [List.foldl_cons]
      have hstep : priorityStep t acc c = acc := by
        unfold priorityStep
        rw [h c (List.mem_cons_self _ _)]
      rw [hstep]
      exact ih _ (fun d hd => h d (List.mem_cons_of_mem _ hd))

lemma selectLoop_go_some (t : List Char) (cands : List String) :
    ∀ (i : Nat) (p : String), firstIndexOf t p.data = some i →
    ∃ i2 p2, cands.foldl (priorityStep t) (some i, some p) = (some i2, some p2) ∧
      i2 ≤ i ∧ ((i2 = i ∧ p2 = p) ∨ (p2 ∈ cands ∧ firstIndexOf t p2.data = some i2)) ∧
      ∀ d ∈ cands, ∀ j, firstIndexOf t d.data = some j → i2 ≤ j := by
  induction cands with
  | nil =>
      intro i p hp
      exact ⟨i, p, rfl, le_refl i, Or.inl ⟨rfl, rfl⟩, by simp⟩
  | cons c cs ih =>
      intro i p hp
      rw [List.foldl_cons]
      cases hc : firstIndexOf t c.data with
      | none =>
          have hstep : priorityStep t (some i, some p) c = (some i, some p) := by
            unfold priorityStep
            rw [hc]
          rw [hstep]
          obtain ⟨i2, p2, hfold, hle, hform, hmin⟩ := ih i p hp
          refine ⟨i2, p2, hfold, hle, ?_, ?_⟩
          · rcases hform with h1 | ⟨hm, hf⟩
            · exact Or.inl h1
            · exact Or.inr ⟨List.mem_cons_of_mem _ hm, hf⟩
          · intro d hd j hj
            rcases List.mem_cons.mp hd with rfl | hd2
            · rw [hc] at hj
              exact absurd hj (by simp)
            · exact hmin d hd2 j hj
      | some jc =>
          by_cases hlt : jc < i
          · have hstep : priorityStep t (some i, some p) c = (some jc, some c) := by
              unfold priorityStep
              rw [hc]
              simp [hlt]
            rw [hstep]
            obtain ⟨i2, p2, hfold, hle, hform, hmin⟩ := ih jc c hc
            refine ⟨i2, p2, hfold, le_of_lt (lt_of_le_of_lt hle hlt), ?_, ?_⟩
            · rcases hform with ⟨rfl, rfl⟩ | ⟨hm, hf⟩
              · exact Or.inr ⟨List.mem_cons_self _ _, hc⟩
              · exact Or.inr ⟨List.mem_cons_of_mem _ hm, hf⟩
            · intro d hd j hj
              rcases List.mem_cons.mp hd with rfl | hd2
              · rw [hc] at hj
                injection hj with hj
                exact hj ▸ hle
              · exact hmin d hd2 j hj
          · have hstep : priorityStep t (some i, some p) c = (some i, some p) := by
              unfold priorityStep
              rw [hc]
              simp [hlt]
            rw [hstep]
            obtain ⟨i2, p2, hfold, hle, hform, hmin⟩ := ih i p hp
            refine ⟨i2, p2, hfold, hle, ?_, ?_⟩
            · rcases hform with h1 | ⟨hm, hf⟩
              · exact Or.inl h1
              · exact Or.inr ⟨List.mem_cons_of_mem _ hm, hf⟩
            · intro d hd j hj
              rcases List.mem_cons.mp hd with rfl | hd2
              · rw [hc] at hj
                injection hj with hj
                subst hj
                exact le_trans hle (Nat.le_of_not_lt hlt)
              · exact hmin d hd2 j hj

lemma selectLoop_spec_some (t : List Char) (cands : List String) (c0 : String)
    (hc0 : c0 ∈ cands) (i0 : Nat) (h0 : firstIndexOf t c0.data = some i0) :
    ∃ i2 p2, selectPriorityLoop cands t = (some i2, some p2) ∧ p2 ∈ cands ∧
      firstIndexOf t p2.data = some i2 ∧
      ∀ d ∈ cands, ∀ j, firstIndexOf t d.data = some j → i2 ≤ j := by
  unfold selectPriorityLoop
  induction cands with
  | nil => cases hc0
  | cons c cs ih =>
      rw [List.foldl_cons]
      cases hc : firstIndexOf t c.data with
      | some jc =>
          have hstep : priorityStep t (none, none) c = (some jc, some c) := by
            unfold priorityStep
            rw [hc]
          rw [hstep]
          obtain ⟨i2, p2, hfold, hle, hform, hmin⟩ := selectLoop_go_some t cs jc c hc
          refine ⟨i2, p2, hfold, ?_, ?_, ?_⟩
          · rcases hform with ⟨rfl, rfl⟩ | ⟨hm, _⟩
            · exact List.mem_cons_self _ _
            · exact List.mem_cons_of_mem _ hm
          · rcases hform with ⟨rfl, rfl⟩ | ⟨_, hf⟩
            · exact hc
            · exact hf
          · intro d hd j hj
            rcases List.mem_cons.mp hd with rfl | hd2
            · rw [hc] at hj
              injection hj with hj
              exact hj ▸ hle
            · exact hmin d hd2 j hj
      | none =>
          have hstep : priorityStep t (none, none) c = (none, none) := by
            unfold priorityStep
            rw [hc]
          rw [hstep]
          have hc0cs : c0 ∈ cs := by
            rcases List.mem_cons.mp hc0 with rfl | h2
            · rw [hc] at h0
              cases h0
            · exact h2
          obtain ⟨i2, p2, hfold, hm, hf, hmin⟩ := ih hc0cs
          refine ⟨i2, p2, hfold, List.mem_cons_of_mem _ hm, hf, ?_⟩
          intro d hd j hj
          rcases List.mem_cons.mp hd with rfl | hd2
          · rw [hc] at hj
            cases hj
          · exact hmin d hd2 j hj

lemma foldlShortest_min (t : List String) (h : String) :
    (t.foldl (fun shortest current =>
      if current.length < shortest.length then current else shortest) h).length ≤ h.length ∧
    ∀ x ∈ t, (t.foldl (fun shortest current =>
      if current.length < shortest.length then current else shortest) h).length ≤ x.length := by
  induction t generalizing h with
  | nil => exact ⟨le_refl _, by simp⟩
  | cons c cs ih =>
      rw [List.foldl_cons]
      by_cases hlt : c.length < h.length
      · rw [if_pos hlt]
        obtain ⟨h1, h2⟩ := ih c
        refine ⟨le_trans h1 (le_of_lt hlt), ?_⟩
        intro x hx
        rcases List.mem_cons.mp hx with rfl | hx2
        · exact h1
        · exact h2 x hx2
      · rw [if_neg hlt]
        obtain ⟨h1, h2⟩ := ih h
        refine ⟨h1, ?_⟩
        intro x hx
        rcases List.mem_cons.mp hx with rfl | hx2
        · exact le_trans h1 (Nat.le_of_not_lt hlt)
        · exact h2 x hx2

lemma foldlShortest_first (t : List String) (h : String) :
    ∃ pre post, h :: t = pre ++ (t.foldl (fun shortest current =>
        if current.length < shortest.length then current else shortest) h) :: post ∧
      ∀ x ∈ pre, (t.foldl (fun shortest current =>
        if current.length < shortest.length then current else shortest) h).length < x.length := by
  induction t generalizing h with
  | nil => exact ⟨[], [], rfl, by simp⟩
  | cons c cs ih =>
      rw [List.foldl_cons]
      by_cases hlt : c.length < h.length
      · rw [if_pos hlt]
        obtain ⟨pre2, post2, heq, hpre⟩ := ih c
        refine ⟨h :: pre2, post2, by rw [List.cons_append, ← heq], ?_⟩
        intro x hx
        rcases List.mem_cons.mp hx with rfl | hx2
        · exact lt_of_le_of_lt (foldlShortest_min cs c).1 hlt
        · exact hpre x hx2
      · rw [if_neg hlt]
        obtain ⟨pre2, post2, heq, hpre⟩ := ih h
        cases pre2 with
        | nil =>
            simp only [List.nil_append] at heq
            injection heq with heq1 heq2
            exact ⟨[], c :: cs, by rw [List.nil_append, ← heq1], by simp⟩
        | cons p0 pre3 =>
            rw [List.cons_append] at heq
            injection heq with heq1 heq2
            subst heq1
            have hrh : (cs.foldl (fun shortest current =>
                if current.length < shortest.length then current else shortest) h).length
                < h.length := hpre h (List.mem_cons_self _ _)
            refine ⟨h :: c :: pre3, post2, ?_, ?_⟩
            · rw [List.cons_append, List.cons_append, ← heq2]
            · intro x hx
              rcases List.mem_cons.mp hx with rfl | hx2
              · exact hrh
              · rcases List.mem_cons.mp hx2 with rfl | hx3
                · exact lt_of_lt_of_le hrh (Nat.le_of_not_lt hlt)
                · exact hpre x (List.mem_cons_of_mem _ hx3)

lemma chooseShortest_spec {l : List String} (h : l ≠ []) :
    ∃ c, chooseShortest l = some c ∧ IsFirstShortest l c := by
  cases l with
  | nil => exact absurd rfl h
  | cons h0 t =>
      refine ⟨_, rfl, ⟨foldlShortest_first t h0, ?_⟩⟩
      intro x hx
      rcases List.mem_cons.mp hx with rfl | hx2
      · exact (foldlShortest_min t x).1
      · exact (foldlShortest_min t h0).2 x hx2

lemma chooseShortest_mem {l : List String} {c : String}
    (h : chooseShortest l = some c) : c ∈ l := by
  cases l with
  | nil => cases h
  | cons h0 t =>
      obtain ⟨c2, hc2, hfs⟩ := chooseShortest_spec (l := h0 :: t) (by simp)
      rw [h] at hc2
      injection hc2 with hc2
      subst hc2
      obtain ⟨pre, post, heq, _⟩ := hfs.1
      rw [heq]
      exact List.mem_append.mpr (Or.inr (List.mem_cons_self _ _))

lemma canonicalBrandOf_spec {rb : List String} (h : rb ≠ []) :
    ∃ c, canonicalBrandOf rb = some c ∧
      ((rb.filter (fun b => !ignoreBrandsList.contains (strToLower b))) ≠ [] →
        IsFirstShortest (rb.filter (fun b => !ignoreBrandsList.contains (strToLower b))) c) ∧
      ((rb.filter (fun b => !ignoreBrandsList.contains (strToLower b))) = [] →
        IsFirstShortest rb c) := by
  unfold canonicalBrandOf
  by_cases hf : (rb.filter (fun b => !ignoreBrandsList.contains (strToLower b))) = []
  · rw [hf]
    simp only [List.length_nil, gt_iff_lt, lt_self_iff_false, if_false]
    obtain ⟨c, hc, hfs⟩ := chooseShortest_spec h
    exact ⟨c, hc, fun hne => absurd rfl hne, fun _ => hfs⟩
  · have hlen : (rb.filter (fun b => !ignoreBrandsList.contains (strToLower b))).length > 0 :=
      List.length_pos.mpr hf
    rw [if_pos hlen]
    obtain ⟨c, hc, hfs⟩ := chooseShortest_spec hf
    exact ⟨c, hc, fun _ => hfs, fun he => absurd he hf⟩

lemma canonicalBrandOf_mem {rb : List String} {c : String}
    (h : canonicalBrandOf rb = some c) : c ∈ rb := by
  unfold canonicalBrandOf at h
  by_cases hlen : (rb.filter (fun b => !ignoreBrandsList.contains (strToLower b))).length > 0
  · rw [if_pos hlen] at h
    exact List.mem_of_mem_filter (chooseShortest_mem h)
  · rw [if_neg hlen] at h
    exact chooseShortest_mem h

lemma hasBrandKey_eq_isSome (g : BrandsMapping) (k : String) :
    hasBrandKey g k = (List.lookup k g).isSome := by
  induction g with
  | nil => rfl
  | cons p t ih =>
      rcases p with ⟨a, l⟩
      show (a == k || hasBrandKey t k) = _
      rw [List.lookup_cons]
      by_cases hak : k = a
      · subst hak
        simp
      · have h1 : (k == a) = false := beq_eq_false_iff_ne.mpr hak
        have h2 : (a == k) = false := beq_eq_false_iff_ne.mpr (Ne.symm hak)
        simp only [h1, h2, Bool.false_or]
        exact ih

lemma relatedOf_ensure (g : BrandsMapping) (k a : String) :
    relatedOf (ensureBrandKey g k) a = relatedOf g a := by
  unfold ensureBrandKey
  by_cases h : hasBrandKey g k = true
  · rw [if_pos h]
  · rw [if_neg h]
    unfold relatedOf
    rw [List.lookup_append]
    cases hl : List.lookup a g with
    | some l => rfl
    | none =>
        simp only [Option.none_or]
        by_cases hak : a = k
        · subst hak
          simp [List.lookup_cons]
        · simp [List.lookup_cons, beq_eq_false_iff_ne.mpr hak]

lemma hasKey_ensure_self (g : BrandsMapping) (k : String) :
    hasBrandKey (ensureBrandKey g k) k = true := by
  unfold ensureBrandKey
  by_cases h : hasBrandKey g k = true
  · rw [if_pos h]
    exact h
  · rw [if_neg h]
    unfold hasBrandKey
    rw [List.any_append]
    simp [hasBrandKey]

lemma hasKey_ensure_mono (g : BrandsMapping) (k x : String)
    (h : hasBrandKey g x = true) : hasBrandKey (ensureBrandKey g k) x = true := by
  unfold ensureBrandKey
  by_cases h2 : hasBrandKey g k = true
  · rw [if_pos h2]
    exact h
  · rw [if_neg h2]
    unfold hasBrandKey at h ⊢
    rw [List.any_append, h, Bool.true_or]

lemma hasKey_addNeighbor (g : BrandsMapping) (k v x : String) :
    hasBrandKey (addNeighbor g k v) x = hasBrandKey g x := by
  unfold hasBrandKey addNeighbor
  induction g with
  | nil => rfl
  | cons p t ih =>
      rcases p with ⟨b, l⟩
      show ((if b == k then ((b : String), insertVal l v) else (b, l)).1 == x
          || _) = (b == x || _)
      by_cases hbk : b = k
      · rw [if_pos (beq_iff_eq.mpr hbk)]
        rw [ih]
      · rw [if_neg (by simp [beq_eq_false_iff_ne.mpr hbk] : ¬(b == k) = true)]
        rw [ih]

lemma mem_insertVal (l : List String) (v x : String) :
    x ∈ insertVal l v ↔ x ∈ l ∨ x = v := by
  unfold insertVal
  by_cases hc : l.contains v = true
  · rw [if_pos hc]
    have hv : v ∈ l := List.elem_iff.mp hc
    constructor
    · exact Or.inl
    · rintro (h | rfl)
      · exact h
      · exact hv
  · rw [if_neg hc]
    rw [List.mem_append, List.mem_singleton]

lemma lookup_addNeighbor (g : BrandsMapping) (k v a : String) :
    List.lookup a (addNeighbor g k v) =
      if a = k then (List.lookup a g).map (fun l => insertVal l v)
      else List.lookup a g := by
  induction g with
  | nil =>
      by_cases hak : a = k
      · rw [if_pos hak]
        rfl
      · rw [if_neg hak]
        rfl
  | cons p t ih =>
      rcases p with ⟨b, l⟩
      show List.lookup a ((if b == k then (b, insertVal l v) else (b, l)) :: addNeighbor t k v) = _
      by_cases hbk : b = k
      · subst hbk
        rw [if_pos (beq_iff_eq.mpr rfl)]
        by_cases hab : a = b
        · subst hab
          rw [if_pos rfl]
          simp [List.lookup_cons]
        · rw [if_neg hab]
          simp only [List.lookup_cons, beq_eq_false_iff_ne.mpr hab]
          rw [ih, if_neg hab]
      · rw [if_neg (beq_eq_false_iff_ne.mpr hbk ▸ by simp [beq_eq_false_iff_ne.mpr hbk] : ¬(b == k) = true)]
        by_cases hab : a = b
        · subst hab
          rw [if_neg hbk]
          simp [List.lookup_cons]
        · simp only [List.lookup_cons, beq_eq_false_iff_ne.mpr hab]
          exact ih

lemma mem_relatedOf_addNeighbor (g : BrandsMapping) (k v a x : String) :
    x ∈ relatedOf (addNeighbor g k v) a ↔
      x ∈ relatedOf g a ∨ (a = k ∧ x = v ∧ hasBrandKey g k = true) := by
  unfold relatedOf
  rw [lookup_addNeighbor]
  by_cases hak : a = k
  · subst hak
    rw [if_pos rfl, hasBrandKey_eq_isSome]
    cases hl : List.lookup a g with
    | none => simp
    | some l =>
        simp only [Option.map_some, Option.isSome_some]
        show x ∈ insertVal l v ↔ _
        rw [mem_insertVal]
        simp
  · rw [if_neg hak]
    simp [hak]

lemma hasKey_addConnection (b1 : String) (g : BrandsMapping) (b2 x : String)
    (h : hasBrandKey g x = true) :
    hasBrandKey (addConnection b1 g b2) x = true := by
  unfold addConnection
  rw [hasKey_addNeighbor, hasKey_addNeighbor]
  exact hasKey_ensure_mono _ _ _ h

lemma mem_relatedOf_addConnection (b1 : String) (g : BrandsMapping) (b2 a x : String)
    (h1 : hasBrandKey g b1 = true) :
    x ∈ relatedOf (addConnection b1 g b2) a ↔
      x ∈ relatedOf g a ∨ (a = b1 ∧ x = b2) ∨ (a = b2 ∧ x = b1) := by
  unfold addConnection
  have k2 : hasBrandKey (ensureBrandKey g b2) b2 = true := hasKey_ensure_self g b2
  have k1 : hasBrandKey (ensureBrandKey g b2) b1 = true := hasKey_ensure_mono _ _ _ h1
  have k2b : hasBrandKey (addNeighbor (ensureBrandKey g b2) b1 b2) b2 = true := by
    rw [hasKey_addNeighbor]
    exact k2
  rw [mem_relatedOf_addNeighbor, mem_relatedOf_addNeighbor, relatedOf_ensure, k1, k2b]
  simp only [and_true]
  tauto

lemma graphSymm_nil : GraphSymm [] := by
  intro a x
  show x ∈ ([] : List String) ↔ a ∈ ([] : List String)
  simp

lemma graphSymm_ensure (g : BrandsMapping) (k : String) (h : GraphSymm g) :
    GraphSymm (ensureBrandKey g k) := by
  intro a x
  rw [relatedOf_ensure, relatedOf_ensure]
  exact h a x

lemma graphSymm_addConnection (b1 : String) (g : BrandsMapping) (b2 : String)
    (h : GraphSymm g) (h1 : hasBrandKey g b1 = true) :
    GraphSymm (addConnection b1 g b2) := by
  intro a x
  rw [mem_relatedOf_addConnection b1 g b2 a x h1,
      mem_relatedOf_addConnection b1 g b2 x a h1]
  rw [h a x]
  tauto

lemma graphSymm_foldl_addConnection (b1 : String) (l : List String) :
    ∀ g, GraphSymm g → hasBrandKey g b1 = true →
      GraphSymm (l.foldl (addConnection b1) g) := by
  induction l with
  | nil => exact fun g h _ => h
  | cons b2 t ih =>
      intro g h h1
      rw [List.foldl_cons]
      exact ih _ (graphSymm_addConnection b1 g b2 h h1) (hasKey_addConnection b1 g b2 b1 h1)

lemma graphSymm_processConnection (g : BrandsMapping) (r : BrandConnection)
    (h : GraphSymm g) : GraphSymm (processConnection g r) := by
  unfold processConnection
  exact graphSymm_foldl_addConnection _ _ _
    (graphSymm_ensure _ _ h) (hasKey_ensure_self _ _)

lemma graphSymm_getBrandsMapping (connections : List BrandConnection) :
    GraphSymm (getBrandsMapping connections) := by
  unfold getBrandsMapping
  have main : ∀ (l : List BrandConnection) (g : BrandsMapping), GraphSymm g →
      GraphSymm (l.foldl processConnection g) := by
    intro l
    induction l with
    | nil => exact fun g h => h
    | cons r t ih =>
        intro g h
        rw [List.foldl_cons]
        exact ih _ (graphSymm_processConnection g r h)
  exact main connections [] graphSymm_nil

lemma insertVal_ne_nil (l : List String) (v : String) : insertVal l v ≠ [] := by
  unfold insertVal
  by_cases hc : l.contains v = true
  · rw [if_pos hc]
    intro h
    subst h
    cases hc
  · rw [if_neg hc]
    simp

lemma mem_ensure_entries {g : BrandsMapping} {k : String}
    {p : String × List String} (h : p ∈ ensureBrandKey g k) :
    p ∈ g ∨ p = (k, []) := by
  unfold ensureBrandKey at h
  by_cases h2 : hasBrandKey g k = true
  · rw [if_pos h2] at h
    exact Or.inl h
  · rw [if_neg h2] at h
    rcases List.mem_append.mp h with h3 | h3
    · exact Or.inl h3
    · exact Or.inr (List.mem_singleton.mp h3)

lemma addNeighbor_entries_inv {g : BrandsMapping} {k v : String}
    (P : String → Prop) (h : ∀ q ∈ g, q.2 ≠ [] ∨ q.1 = k ∨ P q.1) :
    ∀ p ∈ addNeighbor g k v, p.2 ≠ [] ∨ P p.1 := by
  intro p hp
  unfold addNeighbor at hp
  obtain ⟨q, hq, hfq⟩ := List.mem_map.mp hp
  by_cases hqk : q.1 == k
  · rw [if_pos hqk] at hfq
    subst hfq
    exact Or.inl (insertVal_ne_nil _ _)
  · rw [if_neg hqk] at hfq
    subst hfq
    rcases h q hq with h1 | h1 | h1
    · exact Or.inl h1
    · exact absurd (beq_iff_eq.mpr h1) hqk
    · exact Or.inr h1

lemma addConnection_entries_ne {b1 : String} {g : BrandsMapping} {b2 : String}
    (h : ∀ q ∈ g, q.2 ≠ [] ∨ q.1 = b1) :
    ∀ p ∈ addConnection b1 g b2, p.2 ≠ [] := by
  have hE : ∀ q ∈ ensureBrandKey g b2, q.2 ≠ [] ∨ q.1 = b1 ∨ q.1 = b2 := by
    intro q hq
    rcases mem_ensure_entries hq with h1 | h1
    · rcases h q h1 with h2 | h2
      · exact Or.inl h2
      · exact Or.inr (Or.inl h2)
    · subst h1
      exact Or.inr (Or.inr rfl)
  have hG3 : ∀ q ∈ addNeighbor (ensureBrandKey g b2) b1 b2, q.2 ≠ [] ∨ q.1 = b2 := by
    apply addNeighbor_entries_inv (fun s => s = b2)
    intro q hq
    exact hE q hq
  intro p hp
  have := addNeighbor_entries_inv (g := addNeighbor (ensureBrandKey g b2) b1 b2)
      (k := b2) (v := b1) (fun _ => False) ?_ p hp
  · tauto
  · intro q hq
    rcases hG3 q hq with h1 | h1
    · exact Or.inl h1
    · exact Or.inr (Or.inl h1)

lemma foldl_addConnection_entries_ne {b1 : String} {arr : List String} :
    ∀ {g : BrandsMapping}, (∀ q ∈ g, q.2 ≠ [] ∨ q.1 = b1) → arr ≠ [] →
      ∀ p ∈ arr.foldl (addConnection b1) g, p.2 ≠ [] := by
  induction arr with
  | nil => exact fun _ h => absurd rfl h
  | cons a rest ih =>
      intro g hg _
      rw [List.foldl_cons]
      have hne : ∀ q ∈ addConnection b1 g a, q.2 ≠ [] := addConnection_entries_ne hg
      by_cases hrest : rest = []
      · subst hrest
        exact fun p hp => hne p hp
      · exact ih (fun q hq => Or.inl (hne q hq)) hrest

lemma splitSemi_ne_nil (l : List Char) : splitSemi l ≠ [] := by
  cases l with
  | nil => simp [splitSemi]
  | cons c t =>
      unfold splitSemi
      by_cases hc : c = ';'
      · rw [if_pos hc]
        simp
      · rw [if_neg hc]
        cases splitSemi t with
        | nil => simp
        | cons h t2 => simp

lemma processConnection_entries_ne {g : BrandsMapping} {r : BrandConnection}
    (h : ∀ q ∈ g, q.2 ≠ []) : ∀ p ∈ processConnection g r, p.2 ≠ [] := by
  unfold processConnection
  apply foldl_addConnection_entries_ne
  · intro q hq
    rcases mem_ensure_entries hq with h1 | h1
    · exact Or.inl (h q h1)
    · subst h1
      exact Or.inr rfl
  · simp only [ne_eq, List.map_eq_nil_iff]
    exact splitSemi_ne_nil _

lemma getBrandsMapping_entries_ne (connections : List BrandConnection) :
    ∀ p ∈ getBrandsMapping connections, p.2 ≠ [] := by
  unfold getBrandsMapping
  have main : ∀ (l : List BrandConnection) (g : BrandsMapping),
      (∀ q ∈ g, q.2 ≠ []) → ∀ p ∈ l.foldl processConnection g, p.2 ≠ [] := by
    intro l
    induction l with
    | nil => exact fun g h => h
    | cons r t ih =>
        intro g h
        rw [List.foldl_cons]
        exact ih _ (processConnection_entries_ne h)
  exact main connections [] (by simp)

lemma lookup_insertAssoc (m : List (String × String)) (k v x : String) :
    List.lookup x (insertAssoc m k v) =
      if x = k then some v else List.lookup x m := by
  induction m with
  | nil =>
      show List.lookup x [(k, v)] = _
      by_cases hxk : x = k
      · subst hxk
        simp [List.lookup_cons]
      · simp [List.lookup_cons, beq_eq_false_iff_ne.mpr hxk, hxk]
  | cons p t ih =>
      rcases p with ⟨a, b⟩
      show List.lookup x (if a == k then (k, v) :: t else (a, b) :: insertAssoc t k v) = _
      by_cases hak : a = k
      · rw [if_pos (beq_iff_eq.mpr hak)]
        subst hak
        by_cases hxk : x = a
        · subst hxk
          simp [List.lookup_cons]
        · simp [List.lookup_cons, beq_eq_false_iff_ne.mpr hxk, hxk]
      · rw [if_neg (by simp [beq_eq_false_iff_ne.mpr hak] : ¬(a == k) = true)]
        by_cases hxa : x = a
        · subst hxa
          by_cases hxk : x = k
          · exact absurd hxk.symm (by exact fun h => hak h.symm)
          · simp [List.lookup_cons, hxk]
        · simp only [List.lookup_cons, beq_eq_false_iff_ne.mpr hxa]
          exact ih

lemma lookup_isSome_writeCanonical (c : String) (l : List String) :
    ∀ (m : List (String × String)) (x : String),
      (List.lookup x m).isSome = true →
      (List.lookup x (l.foldl (writeCanonical c) m)).isSome = true := by
  induction l with
  | nil => exact fun m x h => h
  | cons b t ih =>
      intro m x h
      rw [List.foldl_cons]
      apply ih
      unfold writeCanonical
      rw [lookup_insertAssoc]
      by_cases hx : x = strToLower b
      · rw [if_pos hx]
        rfl
      · rw [if_neg hx]
        exact h

lemma lookup_isSome_writeCanonical_mem (c : String) (l : List String) :
    ∀ (m : List (String × String)) (b : String), b ∈ l →
      (List.lookup (strToLower b) (l.foldl (writeCanonical c) m)).isSome = true := by
  induction l with
  | nil => exact fun m b h => absurd h (by simp)
  | cons b0 t ih =>
      intro m b hb
      rw [List.foldl_cons]
      rcases List.mem_cons.mp hb with rfl | hb2
      · apply lookup_isSome_writeCanonical
        unfold writeCanonical
        rw [lookup_insertAssoc, if_pos rfl]
        rfl
      · exact ih _ b hb2

lemma lookup_writeCanonical_fold (c : String) (l : List String) :
    ∀ (m : List (String × String)) (x : String),
      List.lookup x (l.foldl (writeCanonical c) m) =
        if x ∈ l.map strToLower then some (strToLower c) else List.lookup x m := by
  induction l with
  | nil =>
      intro m x
      simp
  | cons b t ih =>
      intro m x
      rw [List.foldl_cons, ih]
      by_cases hxt : x ∈ t.map strToLower
      · rw [if_pos hxt, if_pos (by simp [hxt])]
      · rw [if_neg hxt]
        unfold writeCanonical
        rw [lookup_insertAssoc]
        by_cases hxb : x = strToLower b
        · rw [if_pos hxb, if_pos (by simp [hxb])]
        · rw [if_neg hxb, if_neg (by
            simp only [List.map_cons, List.mem_cons]
            rintro (h | h)
            · exact hxb h
            · exact hxt h)]

lemma foldl_canonicalStep_none (g : BrandsMapping) :
    g.foldl canonicalStep none = none := by
  induction g with
  | nil => rfl
  | cons q t ih =>
      rw [List.foldl_cons]
      show t.foldl canonicalStep none = none
      exact ih

lemma canonicalStep_some {m0 : List (String × String)} {q : String × List String}
    {c : String} (hc : canonicalBrandOf q.2 = some c) :
    canonicalStep (some m0) q = some (q.2.foldl (writeCanonical c) m0) := by
  unfold canonicalStep
  rw [hc]
  rfl

lemma build_isSome {g : BrandsMapping} (h : ∀ p ∈ g, p.2 ≠ []) :
    ∀ m0, ∃ m, g.foldl canonicalStep (some m0) = some m := by
  induction g with
  | nil => exact fun m0 => ⟨m0, rfl⟩
  | cons q t ih =>
      intro m0
      rw [List.foldl_cons]
      obtain ⟨c, hc, _⟩ := canonicalBrandOf_spec (h q (List.mem_cons_self _ _))
      rw [canonicalStep_some hc]
      exact ih (fun p hp => h p (List.mem_cons_of_mem _ hp)) _

lemma build_mono {g : BrandsMapping} :
    ∀ {m0 m : List (String × String)} {x : String},
      g.foldl canonicalStep (some m0) = some m →
      (List.lookup x m0).isSome = true → (List.lookup x m).isSome = true := by
  induction g with
  | nil =>
      intro m0 m x hfold h
      injection hfold with hfold
      subst hfold
      exact h
  | cons q t ih =>
      intro m0 m x hfold h
      rw [List.foldl_cons] at hfold
      cases hc : canonicalBrandOf q.2 with
      | none =>
          rw [show canonicalStep (some m0) q = none from by
            unfold canonicalStep
            rw [hc]
            rfl] at hfold
          rw [foldl_canonicalStep_none] at hfold
          cases hfold
      | some c =>
          rw [canonicalStep_some hc] at hfold
          exact ih hfold (lookup_isSome_writeCanonical c q.2 m0 x h)

lemma build_mapped {g : BrandsMapping} :
    ∀ {m0 m : List (String × String)},
      g.foldl canonicalStep (some m0) = some m →
      ∀ p ∈ g, ∀ b ∈ p.2, (List.lookup (strToLower b) m).isSome = true := by
  induction g with
  | nil => exact fun _ p hp => absurd hp (by simp)
  | cons q t ih =>
      intro m0 m hfold p hp b hb
      rw [List.foldl_cons] at hfold
      cases hc : canonicalBrandOf q.2 with
      | none =>
          rw [show canonicalStep (some m0) q = none from by
            unfold canonicalStep
            rw [hc]
            rfl] at hfold
          rw [foldl_canonicalStep_none] at hfold
          cases hfold
      | some c =>
          rw [canonicalStep_some hc] at hfold
          rcases List.mem_cons.mp hp with rfl | hp2
          · exact build_mono hfold (lookup_isSome_writeCanonical_mem c p.2 m0 b hb)
          · exact ih hfold p hp2 b hb

lemma hasKey_of_mem {g : BrandsMapping} {p : String × List String} (hp : p ∈ g) :
    hasBrandKey g p.1 = true :=
  List.any_eq_true.mpr ⟨p, hp, beq_iff_eq.mpr rfl⟩

lemma build_last_write {g : BrandsMapping} :
    ∀ {m0 m : List (String × String)},
      g.foldl canonicalStep (some m0) = some m →
      ∀ {a c : String}, List.lookup a m = some c →
      (∃ p ∈ g, a ∈ p.2.map strToLower ∧ c ∈ p.2.map strToLower) ∨
        List.lookup a m0 = some c := by
  induction g with
  | nil =>
      intro m0 m hfold a c h
      injection hfold with hfold
      subst hfold
      exact Or.inr h
  | cons q t ih =>
      intro m0 m hfold a c h
      rw [List.foldl_cons] at hfold
      cases hc : canonicalBrandOf q.2 with
      | none =>
          rw [show canonicalStep (some m0) q = none from by
            unfold canonicalStep
            rw [hc]
            rfl] at hfold
          rw [foldl_canonicalStep_none] at hfold
          cases hfold
      | some cq =>
          rw [canonicalStep_some hc] at hfold
          rcases ih hfold h with ⟨p, hp, hmem⟩ | hm1
          · exact Or.inl ⟨p, List.mem_cons_of_mem _ hp, hmem⟩
          · rw [lookup_writeCanonical_fold] at hm1
            by_cases ha : a ∈ q.2.map strToLower
            · rw [if_pos ha] at hm1
              injection hm1 with hm1
              subst hm1
              refine Or.inl ⟨q, List.mem_cons_self _ _, ha, ?_⟩
              exact List.mem_map.mpr ⟨cq, canonicalBrandOf_mem hc, rfl⟩
            · rw [if_neg ha] at hm1
              exact Or.inr hm1

lemma jsSpace_not_word {c : Char} (h : jsSpace c = true) : jsWordChar c = false := by
  simp only [jsSpace, Bool.or_eq_true, Bool.and_eq_true, decide_eq_true_eq] at h
  rw [Bool.eq_false_iff]
  simp only [ne_eq, jsWordChar, Bool.or_eq_true, Bool.and_eq_true, decide_eq_true_eq]
  omega

lemma occursAt_get {t b : List Char} {p : Nat} (h : occursAt t b p = true)
    {i : Nat} (hi : i < b.length) : t.get? (p + i) = b.get? i := by
  unfold occursAt at h
  obtain ⟨post, hpost⟩ := List.isPrefixOf_iff_prefix.mp h
  rw [List.get?_eq_getElem?, List.get?_eq_getElem?, ← List.getElem?_drop, ← hpost,
    List.getElem?_append, if_pos hi]

lemma occursAt_word {t b : List Char} {p : Nat} (h : occursAt t b p = true)
    (hw : ∀ c ∈ b, jsWordChar c = true) {i : Nat} (hi : i < b.length) :
    isWordAt t (p + i) = true := by
  unfold isWordAt
  rw [occursAt_get h hi]
  rw [List.get?_eq_getElem?]
  obtain ⟨c, hc⟩ : ∃ c, b[i]? = some c :=
    ⟨b[i], List.getElem?_eq_some_iff.mpr ⟨hi, rfl⟩⟩
  rw [hc]
  exact hw c (List.getElem?_mem hc)

lemma occursAt_lt_length {t b : List Char} {p : Nat} (h : occursAt t b p = true)
    (hb : b ≠ []) : p < t.length := by
  unfold occursAt at h
  obtain ⟨post, hpost⟩ := List.isPrefixOf_iff_prefix.mp h
  by_contra hple
  rw [Nat.not_lt] at hple
  rw [List.drop_eq_nil_iff.mpr hple] at hpost
  cases b with
  | nil => exact hb rfl
  | cons x xs => cases hpost

lemma boundary_left_of_space_or_start {t b : List Char} {p : Nat}
    (h : occursAt t b p = true) (hw : ∀ c ∈ b, jsWordChar c = true) (hb : b ≠ [])
    (hleft : p = 0 ∨ (1 ≤ p ∧ spaceAt t (p - 1) = true)) :
    boundaryAt t p = true := by
  have hword : isWordAt t p = true := by
    have := occursAt_word h hw (i := 0) (List.length_pos.mpr hb)
    simpa using this
  unfold boundaryAt
  rw [hword]
  rcases hleft with rfl | ⟨hp1, hsp⟩
  · simp
  · have : isWordAt t (p - 1) = false := by
      unfold spaceAt at hsp
      unfold isWordAt
      cases hg : t.get? (p - 1) with
      | none => rfl
      | some c =>
          rw [hg] at hsp
          exact jsSpace_not_word hsp
    rw [this]
    simp

lemma boundary_right_of_space_or_end {t b : List Char} {p : Nat}
    (h : occursAt t b p = true) (hw : ∀ c ∈ b, jsWordChar c = true) (hb : b ≠ [])
    (hright : spaceAt t (p + b.length) = true ∨ p + b.length = t.length) :
    boundaryAt t (p + b.length) = true := by
  have hlen : 1 ≤ b.length := List.length_pos.mpr hb
  have hlast : isWordAt t (p + b.length - 1) = true := by
    have := occursAt_word h hw (i := b.length - 1) (by omega)
    rw [show p + (b.length - 1) = p + b.length - 1 from by omega] at this
    exact this
  have hnoword : isWordAt t (p + b.length) = false := by
    rcases hright with hsp | hend
    · unfold spaceAt at hsp
      unfold isWordAt
      cases hg : t.get? (p + b.length) with
      | none => rfl
      | some c =>
          rw [hg] at hsp
          exact jsSpace_not_word hsp
    · unfold isWordAt
      rw [List.get?_eq_getElem?]
      rw [List.getElem?_eq_none (by omega)]
  unfold boundaryAt
  rw [hnoword, hlast, decide_eq_true (by omega : 0 < p + b.length)]
  rfl

lemma reAtBOEM_imp_sep {lit input : List Char}
    (hne : lowerChars lit ≠ []) (hw : ∀ c ∈ lowerChars lit, jsWordChar c = true)
    (h : reAtBeginningOrEndOrMiddle lit input = true) :
    reSeparateTerm lit input = true := by
  simp only [reAtBeginningOrEndOrMiddle] at h
  simp only [reSeparateTerm]
  set b := lowerChars lit with hbdef
  set t := lowerChars input with htdef
  rw [List.any_eq_true]
  rw [Bool.or_eq_true, Bool.or_eq_true] at h
  rcases h with (h | h) | h
  · simp only [Bool.and_eq_true, decide_eq_true_eq] at h
    obtain ⟨⟨hlen, hpre⟩, hsp⟩ := h
    have hocc : occursAt t b 0 = true := by
      unfold occursAt
      simpa using hpre
    refine ⟨0, List.mem_range.mpr (by omega), ?_⟩
    simp only [Bool.and_eq_true]
    refine ⟨⟨hocc, boundary_left_of_space_or_start hocc hw hne (Or.inl rfl)⟩, ?_⟩
    have := boundary_right_of_space_or_end hocc hw hne (Or.inl (by simpa using hsp))
    simpa using this
  · rw [List.any_eq_true] at h
    obtain ⟨p, _, hconj⟩ := h
    simp only [Bool.and_eq_true, decide_eq_true_eq] at hconj
    obtain ⟨⟨⟨⟨⟨hp1, hsp1⟩, hocc⟩, hsp2⟩, _⟩, _⟩ := hconj
    refine ⟨p, List.mem_range.mpr (by
      have := occursAt_lt_length hocc hne
      omega), ?_⟩
    simp only [Bool.and_eq_true]
    exact ⟨⟨hocc, boundary_left_of_space_or_start hocc hw hne (Or.inr ⟨hp1, hsp1⟩)⟩,
      boundary_right_of_space_or_end hocc hw hne (Or.inl hsp2)⟩
  · rw [List.any_eq_true] at h
    obtain ⟨p, _, hconj⟩ := h
    simp only [Bool.and_eq_true, decide_eq_true_eq] at hconj
    obtain ⟨⟨⟨⟨hp1, hsp1⟩, hocc⟩, hend⟩, _⟩ := hconj
    refine ⟨p, List.mem_range.mpr (by
      have := occursAt_lt_length hocc hne
      omega), ?_⟩
    simp only [Bool.and_eq_true]
    exact ⟨⟨hocc, boundary_left_of_space_or_start hocc hw hne (Or.inr ⟨hp1, hsp1⟩)⟩,
      boundary_right_of_space_or_end hocc hw hne (Or.inr hend)⟩

lemma lowerChars_escapedBrandOf (brand : String) :
    lowerChars (escapedBrandOf brand).data = lowerChars brand.data := by
  unfold escapedBrandOf
  by_cases h : brand = "happy"
  · subst h
    decide
  · rw [if_neg h]

/-! ### The claims -/

/-- C1 (counterexample): the title `happy cream lotion` contains no upper-case
token `HAPPY`, yet the pattern-cache matcher reports the alias `happy` as
matched; conversely `Cream HAPPY gel` contains the upper-case token but is not
matched.  This falsifies both directions of the claimed equivalence. -/
theorem c1_counterexample :
    cacheMatches [r"happy"] (r"happy") (r"happy cream lotion") = true ∧
    containsUpperHappyToken (r"happy cream lotion") = false ∧
    cacheMatches [r"happy"] (r"happy") (r"Cream HAPPY gel") = false ∧
    containsUpperHappyToken (r"Cream HAPPY gel") = true :=
  ⟨by decide, by decide, by decide, by decide⟩

/-- C1 (amended): the upper-casing of the `happy` pattern literal is cancelled
by the case-insensitive flag of the compiled pattern, so the pattern-cache
matcher reports the alias `happy` as matched exactly when the normalized title
starts, case-insensitively, with `happy` followed by a word boundary,
whitespace or the end of the string; in particular a title whose first word is
lower-case `happy` matches, and a title containing `HAPPY` only mid-title does
not. -/
theorem c1_happy_match_characterization (title : String) :
    (cacheMatches [r"happy"] (r"happy") title =
      reFirstWord (r"happy").data (normalizeInputIfAccentInsensitive title).data) ∧
    cacheMatches [r"happy"] (r"happy") (r"happy cream lotion") = true ∧
    cacheMatches [r"happy"] (r"happy") (r"Cream HAPPY gel") = false := by
  refine ⟨?_, by decide, by decide⟩
  show (buildBrandMatchCache [r"happy"]).any _ = _
  rw [show buildBrandMatchCache [r"happy"]
        = [⟨r"happy", r"HAPPY", PatternKind.firstWord⟩] from by decide]
  simp only [List.any_cons, List.any_nil, Bool.or_false]
  show ((r"happy" : String) == r"happy" &&
      reFirstWord (r"HAPPY").data (normalizeInputIfAccentInsensitive title).data) = _
  rw [show ((r"happy" : String) == r"happy") = true from by decide, Bool.true_and]
  unfold reFirstWord
  rw [show lowerChars (r"HAPPY").data = lowerChars (r"happy").data from by decide]

/-- C2: when the candidate brands (matched aliases united with their direct
graph neighbors) are nonempty alias strings, the priority brand is the
candidate whose first occurrence in the lowered title has the smallest index
(the first such candidate in scan order); when no candidate occurs in the
title, the first matched brand, lower-cased, is chosen.  For the
graph-connected aliases `heel` and `contour` and the title
`Heel Contour Cream 50ml`, the whole pipeline matches both, selects `heel`
(index 0) as priority brand and assigns `canonical("heel") = "heel"`. -/
theorem c2_priority_alias_selection (m0 : String) (cands : List String)
    (t : List Char) (hne : ∀ c ∈ cands, c ≠ "") :
    ((∀ c ∈ cands, firstIndexOf t c.data = none) →
        priorityBrandOf m0 cands t = strToLower m0) ∧
    (∀ c0 ∈ cands, ∀ i0, firstIndexOf t c0.data = some i0 →
      ∃ p i, priorityBrandOf m0 cands t = p ∧ p ∈ cands ∧
        firstIndexOf t p.data = some i ∧
        ∀ d ∈ cands, ∀ j, firstIndexOf t d.data = some j → i ≤ j) ∧
    runPipeline [⟨r"heel", r"contour"⟩] (r"Heel Contour Cream 50ml") =
      some ⟨r"Heel Contour Cream 50ml", [r"contour", r"heel"],
        some (r"heel"), some (r"heel")⟩ ∧
    (buildCanonicalLookup (getBrandsMapping [⟨r"heel", r"contour"⟩])).map
        (fun m => List.lookup (r"heel") m) = some (some (r"heel")) := by
  refine ⟨?_, ?_, by decide, by decide⟩
  · intro h
    unfold priorityBrandOf
    rw [show selectPriorityLoop cands t = (none, none) from
      selectLoop_go_none t cands _ h]
  · intro c0 hc0 i0 h0
    obtain ⟨i2, p2, hfold, hm, hf, hmin⟩ := selectLoop_spec_some t cands c0 hc0 i0 h0
    refine ⟨p2, i2, ?_, hm, hf, hmin⟩
    unfold priorityBrandOf
    rw [hfold]
    show (if p2 = "" then strToLower m0 else p2) = p2
    exact if_neg (hne p2 hm)

/-- C2 (witness): the selection theorem applied to the candidate set
`[heel, contour]` of the heel/contour example. -/
theorem c2_priority_alias_selection_witness :
    (∀ c ∈ [r"heel", r"contour"], c ≠ "") ∧
    (((∀ c ∈ [r"heel", r"contour"],
          firstIndexOf (r"heel contour cream 50ml").data c.data = none) →
        priorityBrandOf (r"contour") [r"heel", r"contour"]
          (r"heel contour cream 50ml").data = strToLower (r"contour")) ∧
      (∀ c0 ∈ [r"heel", r"contour"], ∀ i0,
        firstIndexOf (r"heel contour cream 50ml").data c0.data = some i0 →
        ∃ p i, priorityBrandOf (r"contour") [r"heel", r"contour"]
            (r"heel contour cream 50ml").data = p ∧ p ∈ [r"heel", r"contour"] ∧
          firstIndexOf (r"heel contour cream 50ml").data p.data = some i ∧
          ∀ d ∈ [r"heel", r"contour"], ∀ j,
            firstIndexOf (r"heel contour cream 50ml").data d.data = some j → i ≤ j) ∧
      runPipeline [⟨r"heel", r"contour"⟩] (r"Heel Contour Cream 50ml") =
        some ⟨r"Heel Contour Cream 50ml", [r"contour", r"heel"],
          some (r"heel"), some (r"heel")⟩ ∧
      (buildCanonicalLookup (getBrandsMapping [⟨r"heel", r"contour"⟩])).map
          (fun m => List.lookup (r"heel") m) = some (some (r"heel"))) :=
  ⟨by decide, c2_priority_alias_selection (r"contour") [r"heel", r"contour"]
    (r"heel contour cream 50ml").data (by decide)⟩

/-- C3 (counterexample): the first-word pattern of the alias `gum` matches the
title `Gum-Paste Relief` (the compiled pattern accepts a word boundary after
the alias, and the hyphen provides one), although `gum` is not the first
whitespace-delimited token of that title; this falsifies the claimed
equivalence with first-token occurrence. -/
theorem c3_counterexample :
    cacheMatches [r"gum"] (r"gum") (r"Gum-Paste Relief") = true ∧
    aliasIsFirstToken (r"gum") (r"Gum-Paste Relief") = false :=
  ⟨by decide, by decide⟩

/-- C3 (amended): for an alias on the first-word list that is not ignored, the
pattern-cache matcher reports a match exactly when the lowered normalized
title starts with the lowered alias followed by a word boundary, whitespace,
or the end of the string (first-token occurrence is sufficient when the title
has no leading whitespace, but a non-word character such as a hyphen
immediately after the alias also yields a match); in particular `gum` matches
`Gum Paste Relief` and does not match `Sensitive Gum Protection`. -/
theorem c3_first_word_only_characterization (brand title : String)
    (h1 : brand ∈ firstWordBrandValidationList)
    (h2 : brand ∉ ignoreBrandsList) :
    (cacheMatches [brand] brand title = true ↔
      ((lowerChars brand.data).isPrefixOf
          (lowerChars (normalizeInputIfAccentInsensitive title).data) = true ∧
        groupBoundarySpaceEnd (lowerChars (normalizeInputIfAccentInsensitive title).data)
          (lowerChars brand.data) 0 = true)) ∧
    cacheMatches [r"gum"] (r"gum") (r"Gum Paste Relief") = true ∧
    cacheMatches [r"gum"] (r"gum") (r"Sensitive Gum Protection") = false := by
  refine ⟨?_, by decide, by decide⟩
  have hig : ignoreBrandsList.contains brand = false := by
    rw [Bool.eq_false_iff]
    intro hc
    exact h2 (List.elem_iff.mp hc)
  have hfw : firstWordBrandValidationList.contains brand = true := List.elem_iff.mpr h1
  have hcache : buildBrandMatchCache [brand]
      = [⟨brand, escapedBrandOf brand, PatternKind.firstWord⟩] := by
    unfold buildBrandMatchCache
    simp only [List.foldl_cons, List.foldl_nil, hig, Bool.false_eq_true, if_false,
      hfw, if_true, List.nil_append]
  unfold cacheMatches
  rw [hcache]
  simp only [List.any_cons, List.any_nil, Bool.or_false]
  show (brand == brand && reFirstWord (escapedBrandOf brand).data
      (normalizeInputIfAccentInsensitive title).data) = true ↔ _
  rw [show (brand == brand) = true from beq_iff_eq.mpr rfl, Bool.true_and]
  unfold reFirstWord
  rw [lowerChars_escapedBrandOf]
  show (_ && _) = true ↔ _
  rw [Bool.and_eq_true]

/-- C3 (witness): the characterization applied to the alias `gum` and the
title `Gum-Paste Relief`. -/
theorem c3_first_word_only_characterization_witness :
    ((r"gum") ∈ firstWordBrandValidationList ∧ (r"gum") ∉ ignoreBrandsList) ∧
    ((cacheMatches [r"gum"] (r"gum") (r"Gum-Paste Relief") = true ↔
      ((lowerChars (r"gum").data).isPrefixOf
          (lowerChars (normalizeInputIfAccentInsensitive (r"Gum-Paste Relief")).data) = true ∧
        groupBoundarySpaceEnd
          (lowerChars (normalizeInputIfAccentInsensitive (r"Gum-Paste Relief")).data)
          (lowerChars (r"gum").data) 0 = true)) ∧
    cacheMatches [r"gum"] (r"gum") (r"Gum Paste Relief") = true ∧
    cacheMatches [r"gum"] (r"gum") (r"Sensitive Gum Protection") = false) :=
  ⟨⟨by decide, by decide⟩,
    c3_first_word_only_characterization (r"gum") (r"Gum-Paste Relief")
      (by decide) (by decide)⟩

/-- C4: for every nonempty neighbor list, the canonical-lookup builder selects
the first shortest string among the non-ignored aliases of the list, and the
first shortest string of the full unfiltered list when every alias of the
list is ignored; and on every graph produced by the graph builder the
construction succeeds and maps every alias (every entry key and every member
of every neighbor list, lower-cased) to some canonical label. -/
theorem c4_canonical_choice_and_totality (relatedBrands : List String)
    (h : relatedBrands ≠ []) :
    (∃ c, canonicalBrandOf relatedBrands = some c ∧
      ((relatedBrands.filter (fun b => !ignoreBrandsList.contains (strToLower b))) ≠ [] →
        IsFirstShortest
          (relatedBrands.filter (fun b => !ignoreBrandsList.contains (strToLower b))) c) ∧
      ((relatedBrands.filter (fun b => !ignoreBrandsList.contains (strToLower b))) = [] →
        IsFirstShortest relatedBrands c)) ∧
    ∀ connections : List BrandConnection, ∃ m,
      buildCanonicalLookup (getBrandsMapping connections) = some m ∧
      ∀ p ∈ getBrandsMapping connections,
        (List.lookup (strToLower p.1) m).isSome = true ∧
        ∀ b ∈ p.2, (List.lookup (strToLower b) m).isSome = true := by
  constructor
  · exact canonicalBrandOf_spec h
  · intro connections
    obtain ⟨m, hm⟩ := build_isSome (getBrandsMapping_entries_ne connections) []
    refine ⟨m, hm, ?_⟩
    intro p hp
    constructor
    · have hkey : hasBrandKey (getBrandsMapping connections) p.1 = true := hasKey_of_mem hp
      rw [hasBrandKey_eq_isSome] at hkey
      obtain ⟨l, hl⟩ := Option.isSome_iff_exists.mp hkey
      have hmem : (p.1, l) ∈ getBrandsMapping connections := lookup_mem_pair hl
      have hlne : l ≠ [] := getBrandsMapping_entries_ne connections (p.1, l) hmem
      obtain ⟨b0, hb0⟩ := List.exists_mem_of_ne_nil l hlne
      have hb0rel : b0 ∈ relatedOf (getBrandsMapping connections) p.1 := by
        unfold relatedOf
        rw [hl]
        exact hb0
      have hsym : p.1 ∈ relatedOf (getBrandsMapping connections) b0 :=
        (graphSymm_getBrandsMapping connections p.1 b0).mp hb0rel
      unfold relatedOf at hsym
      cases hl2 : List.lookup b0 (getBrandsMapping connections) with
      | none =>
          rw [hl2] at hsym
          cases hsym
      | some l2 =>
          rw [hl2] at hsym
          exact build_mapped hm (b0, l2) (lookup_mem_pair hl2) p.1 hsym
    · intro b hb
      exact build_mapped hm p hp b hb

/-- C4 (witness): the choice theorem applied to the neighbor list
`[bio, ax]`, whose only non-ignored alias is `ax`. -/
theorem c4_canonical_choice_and_totality_witness :
    ([r"bio", r"ax"] ≠ ([] : List String)) ∧
    ((∃ c, canonicalBrandOf [r"bio", r"ax"] = some c ∧
      (([r"bio", r"ax"].filter (fun b => !ignoreBrandsList.contains (strToLower b))) ≠ [] →
        IsFirstShortest
          ([r"bio", r"ax"].filter (fun b => !ignoreBrandsList.contains (strToLower b))) c) ∧
      (([r"bio", r"ax"].filter (fun b => !ignoreBrandsList.contains (strToLower b))) = [] →
        IsFirstShortest [r"bio", r"ax"] c)) ∧
    ∀ connections : List BrandConnection, ∃ m,
      buildCanonicalLookup (getBrandsMapping connections) = some m ∧
      ∀ p ∈ getBrandsMapping connections,
        (List.lookup (strToLower p.1) m).isSome = true ∧
        ∀ b ∈ p.2, (List.lookup (strToLower b) m).isSome = true) :=
  ⟨by decide, c4_canonical_choice_and_totality [r"bio", r"ax"] (by decide)⟩

/-- C5: for every sequence of brand-relation records, the alias graph built by
`getBrandsMapping` is symmetric: `b ∈ graph[a]` iff `a ∈ graph[b]`. -/
theorem c5_alias_graph_symmetric (connections : List BrandConnection)
    (a b : String) :
    b ∈ relatedOf (getBrandsMapping connections) a ↔
      a ∈ relatedOf (getBrandsMapping connections) b :=
  graphSymm_getBrandsMapping connections a b

/-- C6 (counterexample): in the graph built from the records
`(kkk, "cc;aa")` and `(mmm, "b;cc")`, the canonical lookup maps `aa` to `cc`
although `cc` is not in the neighbor-or-self set of `aa` (which is
`{aa, kkk}`), and maps `cc` to `b`, so
`canonical(canonical(aa)) = b ≠ cc = canonical(aa)`: both the membership and
the idempotence parts of the claim fail. -/
theorem c6_counterexample :
    (buildCanonicalLookup (getBrandsMapping
        [⟨r"kkk", r"cc;aa"⟩, ⟨r"mmm", r"b;cc"⟩])).map
      (fun m => List.lookup (r"aa") m) = some (some (r"cc")) ∧
    ¬ (r"cc") ∈ (r"aa") :: relatedOf (getBrandsMapping
        [⟨r"kkk", r"cc;aa"⟩, ⟨r"mmm", r"b;cc"⟩]) (r"aa") ∧
    (buildCanonicalLookup (getBrandsMapping
        [⟨r"kkk", r"cc;aa"⟩, ⟨r"mmm", r"b;cc"⟩])).map
      (fun m => List.lookup (r"cc") m) = some (some (r"b")) :=
  ⟨by decide, by decide, by decide⟩

/-- C6 (amended): every alias `a` of the constructed canonical lookup received
its label `canonical(a)` from some graph entry whose neighbor list contains
(lower-cased) both `a` and `canonical(a)` — the two are neighbors of a common
key, so `canonical(a)` is itself an alias in the lookup's domain — but
`canonical(a)` need not belong to `a`'s own neighbor-or-self set and the map
need not be idempotent. -/
theorem c6_canonical_from_shared_entry (g : BrandsMapping)
    (m : List (String × String)) (a c : String)
    (h1 : buildCanonicalLookup g = some m) (h2 : List.lookup a m = some c) :
    ∃ p ∈ g, a ∈ p.2.map strToLower ∧ c ∈ p.2.map strToLower ∧
      (List.lookup c m).isSome = true := by
  unfold buildCanonicalLookup at h1
  rcases build_last_write h1 h2 with ⟨p, hp, hmema, hmemc⟩ | hnil
  · refine ⟨p, hp, hmema, hmemc, ?_⟩
    obtain ⟨b, hb, rfl⟩ := List.mem_map.mp hmemc
    exact build_mapped h1 p hp b hb
  · cases hnil

/-- C6 (witness): the amended theorem applied to the counterexample graph at
the alias `aa`, whose canonical label is `cc`. -/
theorem c6_canonical_from_shared_entry_witness :
    (buildCanonicalLookup (getBrandsMapping [⟨r"kkk", r"cc;aa"⟩, ⟨r"mmm", r"b;cc"⟩])
        = some [(r"cc", r"b"), (r"aa", r"cc"), (r"kkk", r"kkk"),
          (r"mmm", r"mmm"), (r"b", r"b")] ∧
      List.lookup (r"aa") [(r"cc", r"b"), (r"aa", r"cc"), (r"kkk", r"kkk"),
          (r"mmm", r"mmm"), (r"b", r"b")] = some (r"cc")) ∧
    ∃ p ∈ getBrandsMapping [⟨r"kkk", r"cc;aa"⟩, ⟨r"mmm", r"b;cc"⟩],
      (r"aa") ∈ p.2.map strToLower ∧ (r"cc") ∈ p.2.map strToLower ∧
      (List.lookup (r"cc") [(r"cc", r"b"), (r"aa", r"cc"), (r"kkk", r"kkk"),
          (r"mmm", r"mmm"), (r"b", r"b")]).isSome = true :=
  ⟨⟨by decide, by decide⟩,
    c6_canonical_from_shared_entry
      (getBrandsMapping [⟨r"kkk", r"cc;aa"⟩, ⟨r"mmm", r"b;cc"⟩])
      [(r"cc", r"b"), (r"aa", r"cc"), (r"kkk", r"kkk"), (r"mmm", r"mmm"), (r"b", r"b")]
      (r"aa") (r"cc") (by decide) (by decide)⟩

/-- C7 (counterexample): the record `(acme, "")` with an empty secondary field
contributes edges: the split of the empty secondary text yields the single
empty token, so the built graph links `acme` and the empty-string alias and
differs from the graph built without the record. -/
theorem c7_counterexample :
    getBrandsMapping [⟨r"acme", r""⟩] = [(r"acme", [r""]), (r"", [r"acme"])] ∧
    getBrandsMapping [⟨r"acme", r""⟩] ≠ getBrandsMapping [] :=
  ⟨by decide, by decide⟩

/-- C7 (amended): a brand-relation record whose secondary field is empty
raises no error but does contribute edges: splitting the empty text produces
one empty token, so processing the record links the lower-cased primary alias
and the empty-string alias in both directions. -/
theorem c7_empty_secondary_adds_edges (g : BrandsMapping) (p1 : String) :
    (r"") ∈ relatedOf (processConnection g ⟨p1, r""⟩) (strToLower p1) ∧
    strToLower p1 ∈ relatedOf (processConnection g ⟨p1, r""⟩) (r"") := by
  have hred : processConnection g ⟨p1, r""⟩
      = addConnection (strToLower p1) (ensureBrandKey g (strToLower p1)) (r"") := rfl
  rw [hred]
  have h1 : hasBrandKey (ensureBrandKey g (strToLower p1)) (strToLower p1) = true :=
    hasKey_ensure_self _ _
  constructor
  · rw [mem_relatedOf_addConnection _ _ _ _ _ h1]
    exact Or.inr (Or.inl ⟨rfl, rfl⟩)
  · rw [mem_relatedOf_addConnection _ _ _ _ _ h1]
    exact Or.inr (Or.inr ⟨rfl, rfl⟩)

/-- C8: the accent normalizer is idempotent: applying
`normalizeInputIfAccentInsensitive` twice gives the same result as applying it
once, for every string. -/
theorem c8_normalize_idempotent (s : String) :
    normalizeInputIfAccentInsensitive (normalizeInputIfAccentInsensitive s) =
      normalizeInputIfAccentInsensitive s := by
  unfold normalizeInputIfAccentInsensitive
  by_cases h : hasAccentTest (nfd s) = true
  · simp only [h, if_true]
    have hstable : ∀ d ∈ (nfd s).data.filter (fun c => !isCombiningMark c),
        decomposeChar d = [d] := by
      intro d hd
      exact mem_nfdChars_stable ((List.mem_filter.mp hd).1)
    have hnfd : nfd (String.mk ((nfd s).data.filter (fun c => !isCombiningMark c)))
        = String.mk ((nfd s).data.filter (fun c => !isCombiningMark c)) := by
      show String.mk (nfdChars _) = _
      rw [show (String.mk ((nfd s).data.filter (fun c => !isCombiningMark c))).data
            = (nfd s).data.filter (fun c => !isCombiningMark c) from rfl,
          nfdChars_of_stable hstable]
    rw [hnfd]
    by_cases h2 : hasAccentTest
        (String.mk ((nfd s).data.filter (fun c => !isCombiningMark c))) = true
    · simp only [h2, if_true]
      show String.mk (List.filter _ (List.filter _ _)) = _
      rw [List.filter_filter]
      simp
    · rw [Bool.not_eq_true] at h2
      simp only [h2]
      simp
  · rw [Bool.not_eq_true] at h
    simp [h]

/-- C9 (counterexample): for the alias `dr.` (which ends in a non-word
character) and the title `beauty dr.`, `checkBrandIsSeparateTerm` reports a
match through its `atBeginningOrEndOrMiddle` pattern, while the precompiled
cache pattern `\bdr\.\b` reports none (no word boundary after the dot): the
two matchers are not observably equivalent. -/
theorem c9_counterexample :
    checkBrandIsSeparateTerm (r"beauty dr.") (r"dr.") = true ∧
    cacheMatches [r"dr."] (r"dr.") (r"beauty dr.") = false :=
  ⟨by decide, by decide⟩

/-- C9 (amended): the precompiled-pattern matcher and
`checkBrandIsSeparateTerm` agree on every non-ignored, nonempty alias whose
lower-cased form consists only of word characters (`[a-z0-9_]`): on the
position-policy lists the two compile the same patterns, and for the default
policy the extra space-delimited pattern of `checkBrandIsSeparateTerm` is
subsumed by the word-boundary pattern; the matchers differ only on aliases
with non-word edge characters. -/
theorem c9_matcher_equivalence_on_word_aliases (brand title : String)
    (hig : brand ∉ ignoreBrandsList) (hne : brand ≠ "")
    (hw : ∀ c ∈ lowerChars brand.data, jsWordChar c = true) :
    cacheMatches [brand] brand title = checkBrandIsSeparateTerm title brand := by
  have higc : ignoreBrandsList.contains brand = false := by
    rw [Bool.eq_false_iff]
    intro hc
    exact hig (List.elem_iff.mp hc)
  have hdata : brand.data ≠ [] := by
    intro hd
    apply hne
    cases brand with
    | mk d =>
        simp only at hd
        subst hd
        rfl
  unfold cacheMatches
  by_cases h1 : firstWordBrandValidationList.contains brand = true
  · have hc : buildBrandMatchCache [brand]
        = [⟨brand, escapedBrandOf brand, PatternKind.firstWord⟩] := by
      unfold buildBrandMatchCache
      simp only [List.foldl_cons, List.foldl_nil, higc, Bool.false_eq_true, if_false,
        h1, if_true, List.nil_append]
    rw [hc]
    simp only [List.any_cons, List.any_nil, Bool.or_false]
    rw [show (brand == brand) = true from beq_iff_eq.mpr rfl, Bool.true_and]
    show reFirstWord (escapedBrandOf brand).data
        (normalizeInputIfAccentInsensitive title).data = _
    unfold checkBrandIsSeparateTerm
    simp only [h1, if_true]
  · by_cases h2 : firstOrSecondWordBrandValidationList.contains brand = true
    · have hc : buildBrandMatchCache [brand]
          = [⟨brand, escapedBrandOf brand, PatternKind.firstOrSecond⟩] := by
        unfold buildBrandMatchCache
        simp only [List.foldl_cons, List.foldl_nil, higc, Bool.false_eq_true, if_false,
          h1, h2, if_true, List.nil_append]
      rw [hc]
      simp only [List.any_cons, List.any_nil, Bool.or_false]
      rw [show (brand == brand) = true from beq_iff_eq.mpr rfl, Bool.true_and]
      show (reFirstWord (escapedBrandOf brand).data
            (normalizeInputIfAccentInsensitive title).data ||
          reSecondWord (escapedBrandOf brand).data
            (normalizeInputIfAccentInsensitive title).data) = _
      unfold checkBrandIsSeparateTerm
      simp only [h1, h2, Bool.false_eq_true, if_false, if_true]
    · have hbh : brand ≠ "happy" := by
        intro hb
        subst hb
        exact h1 (by decide)
      have hesc : escapedBrandOf brand = brand := if_neg hbh
      have hc : buildBrandMatchCache [brand]
          = [⟨brand, escapedBrandOf brand, PatternKind.anywhere⟩] := by
        unfold buildBrandMatchCache
        simp only [List.foldl_cons, List.foldl_nil, higc, Bool.false_eq_true, if_false,
          h1, h2, List.nil_append]
      rw [hc]
      simp only [List.any_cons, List.any_nil, Bool.or_false]
      rw [show (brand == brand) = true from beq_iff_eq.mpr rfl, Bool.true_and]
      show reSeparateTerm (escapedBrandOf brand).data
          (normalizeInputIfAccentInsensitive title).data = _
      unfold checkBrandIsSeparateTerm
      simp only [h1, h2, Bool.false_eq_true, if_false]
      rw [hesc]
      have hlitne : lowerChars brand.data ≠ [] := by
        simp only [lowerChars, ne_eq, List.map_eq_nil_iff]
        exact hdata
      cases hA : reAtBeginningOrEndOrMiddle brand.data
          (normalizeInputIfAccentInsensitive title).data with
      | false => rw [Bool.false_or]
      | true => rw [reAtBOEM_imp_sep hlitne hw hA, Bool.true_or]

/-- C9 (witness): the equivalence applied to the word-character alias `vichy`
and the title `la vichy gel`. -/
theorem c9_matcher_equivalence_on_word_aliases_witness :
    ((r"vichy") ∉ ignoreBrandsList ∧ (r"vichy") ≠ "" ∧
      (∀ c ∈ lowerChars (r"vichy").data, jsWordChar c = true)) ∧
    cacheMatches [r"vichy"] (r"vichy") (r"la vichy gel") =
      checkBrandIsSeparateTerm (r"la vichy gel") (r"vichy") :=
  ⟨⟨by decide, by decide, by decide⟩,
    c9_matcher_equivalence_on_word_aliases (r"vichy") (r"la vichy gel")
      (by decide) (by decide) (by decide)⟩

/-- C10: whenever the per-product matcher collects a nonempty matched-brand
list, the emitted result record carries a non-null priority brand and a
non-null assigned brand. -/
theorem c10_matched_implies_brand_assigned (cache : List CacheEntry)
    (g : BrandsMapping) (canonicalLookup : List (String × String)) (title : String)
    (h : (processTitle cache g canonicalLookup title).matchedBrands ≠ []) :
    (processTitle cache g canonicalLookup title).priorityBrand ≠ none ∧
    (processTitle cache g canonicalLookup title).assignedBrand ≠ none := by
  simp only [processTitle] at h ⊢
  cases hml : cache.foldl (collectStep (normalizeInputIfAccentInsensitive title)) [] with
  | nil =>
      rw [hml] at h
      simp at h
  | cons m0 rest =>
      simp

/-- C10 (witness): the theorem applied to a one-entry cache whose pattern
matches the title `la vichy gel`. -/
theorem c10_matched_implies_brand_assigned_witness :
    (processTitle [⟨r"vichy", r"vichy", PatternKind.anywhere⟩] [] []
        (r"la vichy gel")).matchedBrands ≠ [] ∧
    ((processTitle [⟨r"vichy", r"vichy", PatternKind.anywhere⟩] [] []
        (r"la vichy gel")).priorityBrand ≠ none ∧
      (processTitle [⟨r"vichy", r"vichy", PatternKind.anywhere⟩] [] []
        (r"la vichy gel")).assignedBrand ≠ none) :=
  ⟨by decide, c10_matched_implies_brand_assigned
    [⟨r"vichy", r"vichy", PatternKind.anywhere⟩] [] [] (r"la vichy gel") (by decide)⟩
